import Mathlib

/-!
# Verification of the campus-navigation container library

Shallow embedding of the data-structure core (`src/data_structures/`):
bounded stack and queue, doubly linked list, binary search tree, and the
weighted graph with Dijkstra shortest path and bounded simple-path
enumeration.  Python lists become Lean `List`s, `float` weights become `ℚ`,
`float('inf')` becomes `⊤ : WithTop ℚ`, `None`-able results become `Option`,
and Python `int` positions become `Int`.  Each definition mirrors the
corresponding Python method; deviations forced by totality (fuel for
`while` loops) are noted where they occur and proved irrelevant under the
invariants the code maintains.
-/

/-! ## Stack (`src/data_structures/stack.py`)

`Stack.items` is a Python list whose *end* is the top of the stack:
`push` appends, `pop`/`peek` act on the last element. -/

structure Stack (α : Type) where
  items : List α
  max_size : Option Nat

/-- `Stack(max_size)` constructor: empty item list. -/
def Stack.mkEmpty (α : Type) (max_size : Option Nat) : Stack α :=
  { items := [], max_size := max_size }

def Stack.is_empty (s : Stack α) : Bool :=
  s.items.length == 0

/-- `is_full`: only meaningful when `max_size` is set. -/
def Stack.is_full (s : Stack α) : Bool :=
  match s.max_size with
  | none => false
  | some m => s.items.length ≥ m

def Stack.size (s : Stack α) : Nat :=
  s.items.length

/-- `push` appends to the end of `items` unless the stack is full;
returns the new state together with the Python boolean result. -/
def Stack.push (s : Stack α) (item : α) : Stack α × Bool :=
  if s.is_full then (s, false)
  else ({ s with items := s.items ++ [item] }, true)

/-- `pop` removes and returns the last element (`list.pop()`), or `None`. -/
def Stack.pop (s : Stack α) : Stack α × Option α :=
  if s.is_empty then (s, none)
  else ({ s with items := s.items.dropLast }, s.items.getLast?)

/-- `peek` returns `items[-1]` without mutating, or `None`. -/
def Stack.peek (s : Stack α) : Option α :=
  if s.is_empty then none else s.items.getLast?

/-- `to_list` returns `items.copy()`: the items in push order
(oldest at index 0, most recently pushed last). -/
def Stack.to_list (s : Stack α) : List α :=
  s.items

/-- Replay a sequence of pushes (the call pattern `for x in xs:
stack.push(x)`), reporting whether every push succeeded. -/
def Stack.pushAll (s : Stack α) : List α → Stack α × Bool
  | [] => (s, true)
  | x :: xs =>
      let p := s.push x
      let q := p.1.pushAll xs
      (q.1, p.2 && q.2)

/-- Python negative-index slice `items[-n:]`.  For `n = 0` this is
`items[0:]`, i.e. the whole list — the notorious `-0` quirk — and for
`n ≥ len(items)` it is also the whole list. -/
def pyTailSlice (items : List α) (n : Nat) : List α :=
  if n = 0 then items else items.drop (items.length - n)

/-- `set_max_size`: stores the new bound and, when the current length
exceeds it, keeps `items[-max_size:]`.  Because of the `-0` slice quirk
this does *not* trim when the new bound is `0`. -/
def Stack.set_max_size (s : Stack α) (m : Option Nat) : Stack α :=
  let s' := { s with max_size := m }
  match m with
  | none => s'
  | some n =>
      if s'.items.length > n then { s' with items := pyTailSlice s'.items n }
      else s'

/-! ## Queue (`src/data_structures/queue.py`)

`Queue.items` is a `deque` whose front is the head of the list:
`enqueue` appends at the end, `dequeue` pops from the front. -/

structure Queue (α : Type) where
  items : List α
  max_size : Option Nat

def Queue.mkEmpty (α : Type) (max_size : Option Nat) : Queue α :=
  { items := [], max_size := max_size }

def Queue.is_empty (q : Queue α) : Bool :=
  q.items.length == 0

def Queue.is_full (q : Queue α) : Bool :=
  match q.max_size with
  | none => false
  | some m => q.items.length ≥ m

def Queue.size (q : Queue α) : Nat :=
  q.items.length

def Queue.enqueue (q : Queue α) (item : α) : Queue α × Bool :=
  if q.is_full then (q, false)
  else ({ q with items := q.items ++ [item] }, true)

/-- `dequeue` removes and returns the first item (`popleft`), or `None`. -/
def Queue.dequeue (q : Queue α) : Queue α × Option α :=
  if q.is_empty then (q, none)
  else ({ q with items := q.items.tail }, q.items.head?)

def Queue.peek (q : Queue α) : Option α :=
  if q.is_empty then none else q.items.head?

def Queue.peek_back (q : Queue α) : Option α :=
  if q.is_empty then none else q.items.getLast?

def Queue.to_list (q : Queue α) : List α :=
  q.items

/-- `set_max_size`: stores the bound, then `popleft`s while the length
exceeds it (drops oldest items from the front). -/
def Queue.set_max_size (q : Queue α) (m : Option Nat) : Queue α :=
  let q' := { q with max_size := m }
  match m with
  | none => q'
  | some n =>
      if q'.items.length > n then
        { q' with items := q'.items.drop (q'.items.length - n) }
      else q'

def Queue.contains [DecidableEq α] (q : Queue α) (item : α) : Bool :=
  q.items.contains item

/-- `remove`: `deque.remove` deletes the first occurrence; the
`ValueError` on a missing item is caught and reported as `False`. -/
def Queue.remove [DecidableEq α] (q : Queue α) (item : α) : Queue α × Bool :=
  if q.items.contains item then ({ q with items := q.items.erase item }, true)
  else (q, false)

/-! ## Doubly linked list (`src/data_structures/linked_list.py`)

The node chain collapses to the forward list of stored data; `head` is
the first element, `tail` the last.  The `size` counter is kept as its
own field, mirroring the Python attribute; positions are Python `int`s,
so they are modelled as `Int`. -/

structure DoublyLinkedList (α : Type) where
  items : List α
  size : Nat

def DoublyLinkedList.mkEmpty (α : Type) : DoublyLinkedList α :=
  { items := [], size := 0 }

def DoublyLinkedList.is_empty (l : DoublyLinkedList α) : Bool :=
  l.items.isEmpty

def DoublyLinkedList.get_size (l : DoublyLinkedList α) : Nat :=
  l.size

/-- `head` pointer: the data of the first node, or `None`. -/
def DoublyLinkedList.headData (l : DoublyLinkedList α) : Option α :=
  l.items.head?

/-- `tail` pointer: the data of the last node, or `None`. -/
def DoublyLinkedList.tailData (l : DoublyLinkedList α) : Option α :=
  l.items.getLast?

def DoublyLinkedList.insert_at_beginning (l : DoublyLinkedList α) (data : α) :
    DoublyLinkedList α :=
  { items := data :: l.items, size := l.size + 1 }

def DoublyLinkedList.insert_at_end (l : DoublyLinkedList α) (data : α) :
    DoublyLinkedList α :=
  { items := l.items ++ [data], size := l.size + 1 }

/-- `insert_at_position`: bounds-checks `0 ≤ position ≤ size`, then
inserts at the ends or, in the middle case, walks `position` nodes from
`head` and splices the new node in before the node found there
(i.e. at index `position`). -/
def DoublyLinkedList.insert_at_position (l : DoublyLinkedList α) (data : α)
    (position : Int) : DoublyLinkedList α × Bool :=
  if position < 0 ∨ position > (l.size : Int) then (l, false)
  else if position = 0 then (l.insert_at_beginning data, true)
  else if position = (l.size : Int) then (l.insert_at_end data, true)
  else ({ items := l.items.insertIdx position.toNat data, size := l.size + 1 }, true)

def DoublyLinkedList.delete_from_beginning (l : DoublyLinkedList α) :
    DoublyLinkedList α × Option α :=
  if l.is_empty then (l, none)
  else ({ items := l.items.tail, size := l.size - 1 }, l.items.head?)

def DoublyLinkedList.delete_from_end (l : DoublyLinkedList α) :
    DoublyLinkedList α × Option α :=
  if l.is_empty then (l, none)
  else ({ items := l.items.dropLast, size := l.size - 1 }, l.items.getLast?)

/-- `delete_at_position`: bounds-checks `0 ≤ position < size`, handles the
ends, and otherwise unlinks the node at index `position`. -/
def DoublyLinkedList.delete_at_position (l : DoublyLinkedList α) (position : Int) :
    DoublyLinkedList α × Option α :=
  if position < 0 ∨ position ≥ (l.size : Int) then (l, none)
  else if position = 0 then l.delete_from_beginning
  else if position = (l.size : Int) - 1 then l.delete_from_end
  else ({ items := l.items.eraseIdx position.toNat, size := l.size - 1 },
        l.items.get? position.toNat)

/-- `delete_by_value`: removes the first node holding `value`, if any. -/
def DoublyLinkedList.delete_by_value [DecidableEq α] (l : DoublyLinkedList α)
    (value : α) : DoublyLinkedList α × Bool :=
  if l.items.contains value then
    ({ items := l.items.erase value, size := l.size - 1 }, true)
  else (l, false)

/-- `search`: linear scan, position of the first match or `None`. -/
def DoublyLinkedList.search [DecidableEq α] (l : DoublyLinkedList α) (value : α) :
    Option Nat :=
  l.items.indexOf? value

/-- `get_at_position`: bounds-check against `size`, then walk `position`
nodes forward from `head`. -/
def DoublyLinkedList.get_at_position (l : DoublyLinkedList α) (position : Int) :
    Option α :=
  if position < 0 ∨ position ≥ (l.size : Int) then none
  else l.items.get? position.toNat

def DoublyLinkedList.update_at_position (l : DoublyLinkedList α) (position : Int)
    (new_data : α) : DoublyLinkedList α × Bool :=
  if position < 0 ∨ position ≥ (l.size : Int) then (l, false)
  else ({ l with items := l.items.set position.toNat new_data }, true)

def DoublyLinkedList.to_list (l : DoublyLinkedList α) : List α :=
  l.items

/-! ## Binary search tree (`src/data_structures/binary_tree.py`)

`TreeNode` with `Optional` children becomes an inductive tree whose
`leaf` plays the role of `None`.  The wrapper keeps the `size` counter.
Python compares keys with `==`/`<`, so keys take any linear order. -/

inductive TreeNode (κ ν : Type) where
  | leaf : TreeNode κ ν
  | node (key : κ) (value : ν) (left right : TreeNode κ ν) : TreeNode κ ν

structure BinarySearchTree (κ ν : Type) where
  root : TreeNode κ ν
  size : Nat

def BinarySearchTree.mkEmpty (κ ν : Type) : BinarySearchTree κ ν :=
  { root := .leaf, size := 0 }

/-- `_insert_recursive` (the `root is None` case of `insert` coincides with
recursing into a `leaf`): equal key overwrites the value in place and
reports `False`; otherwise the key descends left or right, a fresh leaf
node being created where a `None` child is found. -/
def TreeNode.insert_rec [LinearOrder κ] :
    TreeNode κ ν → κ → ν → TreeNode κ ν × Bool
  | .leaf, key, value => (.node key value .leaf .leaf, true)
  | .node nk nv l r, key, value =>
      if key = nk then (.node nk value l r, false)
      else if key < nk then
        let p := l.insert_rec key value
        (.node nk nv p.1 r, p.2)
      else
        let p := r.insert_rec key value
        (.node nk nv l p.1, p.2)

/-- `insert`: delegates to the recursive helper and bumps `size` exactly
when a new node was created. -/
def BinarySearchTree.insert [LinearOrder κ] (t : BinarySearchTree κ ν)
    (key : κ) (value : ν) : BinarySearchTree κ ν × Bool :=
  let p := t.root.insert_rec key value
  ({ root := p.1, size := if p.2 then t.size + 1 else t.size }, p.2)

def TreeNode.search_rec [LinearOrder κ] : TreeNode κ ν → κ → Option ν
  | .leaf, _ => none
  | .node nk nv l r, key =>
      if key = nk then some nv
      else if key < nk then l.search_rec key
      else r.search_rec key

def BinarySearchTree.search [LinearOrder κ] (t : BinarySearchTree κ ν)
    (key : κ) : Option ν :=
  t.root.search_rec key

/-- `_find_min` starting from a non-`None` node with fields
`(k, v, l, _)`: follow `left` links while they exist. -/
def TreeNode.find_min_from (k : κ) (v : ν) : TreeNode κ ν → κ × ν
  | .leaf => (k, v)
  | .node k' v' l' _ => TreeNode.find_min_from k' v' l'

/-- `_delete_recursive`: locates the key; a node with a missing child is
replaced by the other child; a node with two children takes its in-order
successor's key/value (minimum of the right subtree) and that successor
is deleted from the right subtree. -/
def TreeNode.delete_rec [LinearOrder κ] :
    TreeNode κ ν → κ → TreeNode κ ν × Bool
  | .leaf, _ => (.leaf, false)
  | .node nk nv l r, key =>
      if key < nk then
        let p := l.delete_rec key
        (.node nk nv p.1 r, p.2)
      else if nk < key then
        let p := r.delete_rec key
        (.node nk nv l p.1, p.2)
      else
        match l, r with
        | .leaf, _ => (r, true)
        | .node lk lv ll lr, .leaf => (.node lk lv ll lr, true)
        | .node lk lv ll lr, .node rk rv rl rr =>
            let s := TreeNode.find_min_from rk rv rl
            let p := (TreeNode.node rk rv rl rr).delete_rec s.1
            (.node s.1 s.2 (.node lk lv ll lr) p.1, true)

/-- `delete`: delegates and decrements `size` exactly when a node was
removed. -/
def BinarySearchTree.delete [LinearOrder κ] (t : BinarySearchTree κ ν)
    (key : κ) : BinarySearchTree κ ν × Bool :=
  let p := t.root.delete_rec key
  ({ root := p.1, size := if p.2 then t.size - 1 else t.size }, p.2)

def TreeNode.inorder : TreeNode κ ν → List (κ × ν)
  | .leaf => []
  | .node k v l r => l.inorder ++ (k, v) :: r.inorder

def BinarySearchTree.inorder_traversal (t : BinarySearchTree κ ν) :
    List (κ × ν) :=
  t.root.inorder

/-- `_get_height_recursive`: `-1` for `None`, else `max + 1`. -/
def TreeNode.get_height_rec : TreeNode κ ν → Int
  | .leaf => -1
  | .node _ _ l r => max l.get_height_rec r.get_height_rec + 1

/-- `_is_balanced_recursive`: returns the height-plus-one of a balanced
subtree and the sentinel `-1` as soon as any subtree is unbalanced. -/
def TreeNode.balance_rec : TreeNode κ ν → Int
  | .leaf => 0
  | .node _ _ l r =>
      let lh := l.balance_rec
      if lh = -1 then -1
      else
        let rh := r.balance_rec
        if rh = -1 then -1
        else if 1 < |lh - rh| then -1
        else max lh rh + 1

def BinarySearchTree.is_balanced (t : BinarySearchTree κ ν) : Bool :=
  t.root.balance_rec != -1

/-- Replay a list of key/value insertions (the Python call pattern
`for k, v in pairs: tree.insert(k, v)`). -/
def BinarySearchTree.insertList [LinearOrder κ] (t : BinarySearchTree κ ν) :
    List (κ × ν) → BinarySearchTree κ ν
  | [] => t
  | kv :: rest => ((t.insert kv.1 kv.2).1).insertList rest

/-! ## Weighted graph (`src/data_structures/graph.py`)

Vertex identifiers (Python strings) are opaque ordered names, modelled
as `Nat`; only equality and the tuple tie-break order of the heap touch
them.  Edge weights (Python non-negative `float`s in every use the
claims cover) live in an arbitrary linearly ordered additive commutative
monoid `W`, with `⊤ : WithTop W` playing `float('inf')`.
`adjacency_list` is the `defaultdict(list)`: a total function that is
`[]` off its keys. -/

structure Graph (W : Type) where
  vertices : List Nat
  adjacency_list : Nat → List (Nat × W)

def Graph.emptyGraph (W : Type) : Graph W :=
  { vertices := [], adjacency_list := fun _ => [] }

/-- `add_vertex`: `set.add` (idempotent; insertion order kept for the
model's vertex list, which only membership and counting ever consult). -/
def Graph.add_vertex (g : Graph W) (vertex : Nat) : Graph W :=
  { g with vertices := if vertex ∈ g.vertices then g.vertices else g.vertices ++ [vertex] }

/-- Pointwise update of the adjacency `defaultdict`. -/
def adjUpdate (f : Nat → List (Nat × W)) (x : Nat) (l : List (Nat × W)) :
    Nat → List (Nat × W) :=
  fun y => if y = x then l else f y

/-- `add_edge`: ensures both endpoints exist, then appends `(b, w)` to
`a`'s adjacency and the reverse entry `(a, w)` to `b`'s (no
deduplication: parallel entries accumulate). -/
def Graph.add_edge (g : Graph W) (from_vertex to_vertex : Nat) (weight : W) :
    Graph W :=
  let g1 := (g.add_vertex from_vertex).add_vertex to_vertex
  let a1 := adjUpdate g1.adjacency_list from_vertex
    (g1.adjacency_list from_vertex ++ [(to_vertex, weight)])
  let a2 := adjUpdate a1 to_vertex (a1 to_vertex ++ [(from_vertex, weight)])
  { g1 with adjacency_list := a2 }

/-- `get_neighbors`: `adjacency_list.get(vertex, [])`. -/
def Graph.get_neighbors (g : Graph W) (vertex : Nat) : List (Nat × W) :=
  g.adjacency_list vertex

/-- One construction call, for quantifying over graphs built by
`add_vertex`/`add_edge`. -/
inductive BuildOp (W : Type) where
  | vertex (v : Nat) : BuildOp W
  | edge (a b : Nat) (w : W) : BuildOp W

def applyOp (g : Graph W) : BuildOp W → Graph W
  | .vertex v => g.add_vertex v
  | .edge a b w => g.add_edge a b w

def buildGraphFrom (g : Graph W) : List (BuildOp W) → Graph W
  | [] => g
  | op :: rest => buildGraphFrom (applyOp g op) rest

/-- The graph produced by a sequence of construction calls, applied in
call order to the empty graph. -/
def buildGraph (ops : List (BuildOp W)) : Graph W :=
  buildGraphFrom (Graph.emptyGraph W) ops

/-- All edge weights appearing in a build script are non-negative. -/
def opsNonneg [LinearOrder W] [Zero W] (ops : List (BuildOp W)) : Bool :=
  ops.all fun op =>
    match op with
    | .vertex _ => true
    | .edge _ _ w => decide (0 ≤ w)

/-- `path` is a walk through adjacency entries from `a` to `z` whose
chosen entry weights sum to `c` (parallel entries give one instance per
entry).  This is the specification-side notion of a path and its cost. -/
inductive IsPathCost [AddCommMonoid W] (g : Graph W) :
    List Nat → Nat → Nat → W → Prop where
  | single (v : Nat) : IsPathCost g [v] v v 0
  | cons {u v z : Nat} {w : W} {p : List Nat} {c : W} :
      (v, w) ∈ g.adjacency_list u → IsPathCost g p v z c →
      IsPathCost g (u :: p) u z (w + c)

/-- Structural well-formedness that `add_vertex`/`add_edge` construction
guarantees (proved below as `buildGraph_wf`): distinct vertex entries,
adjacency targets are known vertices, adjacency keys are known
vertices. -/
structure Graph.Wf (g : Graph W) : Prop where
  nodup : g.vertices.Nodup
  closed : ∀ u, ∀ nw ∈ g.adjacency_list u, nw.1 ∈ g.vertices
  keyed : ∀ u, g.adjacency_list u ≠ [] → u ∈ g.vertices

/-! ### Dijkstra (`Graph.dijkstra`)

The Python `heapq` of `(distance, vertex)` tuples is a bag from which
each `heappop` removes a least element under tuple (lexicographic)
order; the model keeps the bag as a list, pushes by appending, and pops
the first least element. -/

/-- Strict tuple order `(d₁, v₁) < (d₂, v₂)` used by the heap. -/
def entryLtb [LinearOrder W] (a b : W × Nat) : Bool :=
  decide (a.1 < b.1 ∨ (a.1 = b.1 ∧ a.2 < b.2))

def heapMinAux [LinearOrder W] (e : W × Nat) : List (W × Nat) → W × Nat
  | [] => e
  | f :: rest => heapMinAux (if entryLtb f e then f else e) rest

/-- `heapq.heappop`: removes and returns a least entry (`none` when the
heap is empty). -/
def heappop [LinearOrder W] (pq : List (W × Nat)) :
    Option ((W × Nat) × List (W × Nat)) :=
  match pq with
  | [] => none
  | e :: rest =>
      let m := heapMinAux e rest
      some (m, (e :: rest).erase m)

/-- Mutable-dict entry assignment. -/
def dictSet {β : Type} (f : Nat → β) (x : Nat) (b : β) : Nat → β :=
  fun y => if y = x then b else f y

/-- Loop state of `dijkstra`: the `distances` dict, the `previous` dict,
the `visited` set (kept as its insertion sequence), and the heap. -/
structure DijkstraState (W : Type) where
  dist : Nat → WithTop W
  prev : Nat → Option Nat
  visited : List Nat
  pq : List (W × Nat)

/-- The `for neighbor, weight in self.get_neighbors(current_vertex)`
relaxation loop: skip visited neighbors; when
`current_distance + weight < distances[neighbor]`, write the new
distance and predecessor and push the new entry. -/
def relaxNeighbors [LinearOrderedAddCommMonoid W] (u : Nat) (d : W) :
    List (Nat × W) → DijkstraState W → DijkstraState W
  | [], s => s
  | (n, w) :: rest, s =>
      if n ∈ s.visited then relaxNeighbors u d rest s
      else
        let nd := d + w
        if (nd : WithTop W) < s.dist n then
          relaxNeighbors u d rest
            { s with dist := dictSet s.dist n (nd : WithTop W),
                     prev := dictSet s.prev n (some u),
                     pq := s.pq ++ [(nd, n)] }
        else relaxNeighbors u d rest s

/-- The `while pq:` loop.  The fuel argument only discharges totality:
`dijkstraFuel` below strictly exceeds the number of iterations the loop
can make, so the `0` branch is never taken from the initial state (the
termination-measure lemmas prove this), and when it is the state is
returned unchanged exactly as on normal exhaustion of `pq`. -/
def dijkstraLoop [LinearOrderedAddCommMonoid W] (g : Graph W)
    (end_vertex : Nat) : Nat → DijkstraState W → DijkstraState W
  | 0, s => s
  | fuel + 1, s =>
      match heappop s.pq with
      | none => s
      | some ((d, u), rest) =>
          if u ∈ s.visited then
            dijkstraLoop g end_vertex fuel { s with pq := rest }
          else
            let s' := { s with visited := s.visited ++ [u], pq := rest }
            if u = end_vertex then s'
            else dijkstraLoop g end_vertex fuel
              (relaxNeighbors u d (g.get_neighbors u) s')

/-- Iteration bound: one initial heap entry plus, for every vertex, one
settling pop and one push per incident adjacency entry. -/
def dijkstraFuel (g : Graph W) : Nat :=
  1 + (g.vertices.map fun v => 1 + (g.adjacency_list v).length).sum

/-- Path reconstruction: `while current is not None:` collect and step to
`previous[current]`, then reverse.  Fuel `g.vertices.length` bounds the
predecessor chain, which strictly descends the settling order. -/
def reconstructPath (prev : Nat → Option Nat) : Nat → Nat → List Nat
  | 0, v => [v]
  | fuel + 1, v =>
      match prev v with
      | none => [v]
      | some u => reconstructPath prev fuel u ++ [v]

/-- `dijkstra(start_vertex, end_vertex)`: unknown endpoints give
`([], inf)`; otherwise run the relaxation loop (distances start at `inf`
except `start = 0`, heap starts at `[(0, start)]`, early `break` when
`end_vertex` is settled) and reconstruct the path unless the end
distance stayed `inf`. -/
def Graph.dijkstra [LinearOrderedAddCommMonoid W] (g : Graph W)
    (start_vertex end_vertex : Nat) : List Nat × WithTop W :=
  if start_vertex ∈ g.vertices ∧ end_vertex ∈ g.vertices then
    let init : DijkstraState W :=
      { dist := fun v => if v = start_vertex then (0 : W) else ⊤,
        prev := fun _ => none,
        visited := [],
        pq := [(0, start_vertex)] }
    let t := dijkstraLoop g end_vertex (dijkstraFuel g) init
    if t.dist end_vertex = ⊤ then ([], ⊤)
    else (reconstructPath t.prev g.vertices.length end_vertex, t.dist end_vertex)
  else ([], ⊤)

/-! ### Bounded simple-path enumeration (`Graph.find_all_paths`) -/

/-- The `while queue and len(paths) < max_paths:` loop over
`(vertex, path-so-far, distance-so-far)` entries: a front entry that has
reached `end_vertex` is recorded; otherwise one successor entry is
appended per neighbor not already on the path.  Fuel again only
discharges totality and is never exhausted from the initial state. -/
def fapLoop [AddCommMonoid W] (g : Graph W) (end_vertex : Nat)
    (max_paths : Nat) :
    Nat → List (Nat × List Nat × W) → List (List Nat × W) →
    List (List Nat × W)
  | 0, _, paths => paths
  | fuel + 1, queue, paths =>
      if paths.length ≥ max_paths then paths
      else
        match queue with
        | [] => paths
        | (current, path, dist) :: rest =>
            if current = end_vertex then
              fapLoop g end_vertex max_paths fuel rest (paths ++ [(path, dist)])
            else
              fapLoop g end_vertex max_paths fuel
                (rest ++ ((g.get_neighbors current).filter
                    (fun nw => !path.contains nw.1)).map
                  (fun nw => (nw.1, path ++ [nw.1], dist + nw.2)))
                paths

/-- Size of the prefix-expansion tree rooted at `(v, path)`: the number
of queue entries the loop can ever process that descend from it.  The
fuel argument is irrelevant from `fuel = g.vertices.length` on (proved
below), because simple paths over the vertex list cannot grow longer. -/
def fapTreeCount [AddCommMonoid W] (g : Graph W) (end_vertex : Nat) :
    Nat → Nat → List Nat → Nat
  | 0, _, _ => 1
  | fuel + 1, v, path =>
      if v = end_vertex then 1
      else 1 + (((g.get_neighbors v).filter (fun nw => !path.contains nw.1)).map
        (fun nw => fapTreeCount g end_vertex fuel nw.1 (path ++ [nw.1]))).sum

/-- Exhaustive reference enumeration of the completions of a prefix:
every simple extension of `path` that reaches `end_vertex`, one entry
per adjacency-entry choice, in the same left-to-right order the loop
discovers them. -/
def simplePathsFrom [AddCommMonoid W] (g : Graph W) (end_vertex : Nat) :
    Nat → Nat → List Nat → W → List (List Nat × W)
  | 0, _, _, _ => []
  | fuel + 1, v, path, dist =>
      if v = end_vertex then [(path, dist)]
      else ((g.get_neighbors v).filter (fun nw => !path.contains nw.1)).flatMap
        (fun nw => simplePathsFrom g end_vertex fuel nw.1 (path ++ [nw.1])
          (dist + nw.2))

/-- Specification-side set of all simple `start → end` paths with their
distances (meaningful when `start ≠ end`; `fuel = g.vertices.length`
suffices for every simple path). -/
def Graph.allSimplePaths [AddCommMonoid W] (g : Graph W)
    (start_vertex end_vertex : Nat) : List (List Nat × W) :=
  simplePathsFrom g end_vertex g.vertices.length start_vertex [start_vertex] 0

/-- `paths.sort(key=lambda x: x[1])`: Python's stable ascending sort by
total distance, embedded as the (equally stable) insertion sort. -/
def sortByDistance [LinearOrder W] (paths : List (List Nat × W)) :
    List (List Nat × W) :=
  List.insertionSort (fun a b => a.2 ≤ b.2) paths

/-- `find_all_paths(start_vertex, end_vertex, max_paths)`. -/
def Graph.find_all_paths [LinearOrderedAddCommMonoid W] (g : Graph W)
    (start_vertex end_vertex : Nat) (max_paths : Nat) :
    List (List Nat × W) :=
  if start_vertex ∈ g.vertices ∧ end_vertex ∈ g.vertices then
    if start_vertex = end_vertex then [([start_vertex], 0)]
    else
      sortByDistance
        (fapLoop g end_vertex max_paths
          (fapTreeCount g end_vertex g.vertices.length start_vertex [start_vertex])
          [(start_vertex, [start_vertex], 0)] [])
  else []

/-! ## Specification-side definitions for the tree claims -/

/-- The keys of a tree in symmetric order. -/
def TreeNode.keys (t : TreeNode κ ν) : List κ :=
  t.inorder.map Prod.fst

/-- Search-tree ordering invariant: at every node all left keys are
smaller and all right keys larger. -/
def TreeNode.Ordered [LinearOrder κ] : TreeNode κ ν → Prop
  | .leaf => True
  | .node k _ l r =>
      (∀ x ∈ l.keys, x < k) ∧ (∀ x ∈ r.keys, k < x) ∧ l.Ordered ∧ r.Ordered

/-- Height-balance as the spec states it: at every node the two child
subtree heights (as computed by `get_height`) differ by at most 1. -/
def BalancedP : TreeNode κ ν → Prop
  | .leaf => True
  | .node _ _ l r =>
      |l.get_height_rec - r.get_height_rec| ≤ 1 ∧ BalancedP l ∧ BalancedP r

/-- Degenerate right chain produced by ascending insertion:
keys `lo, lo+1, …, lo+n-1`. -/
def rightChain (lo : Nat) : Nat → TreeNode Nat Unit
  | 0 => .leaf
  | n + 1 => .node lo () .leaf (rightChain (lo + 1) n)

/-- Median-first (balanced recursive split) insertion order for the key
range `lo, …, lo+c-1`: the median first, then the two halves. -/
def medianSeq : Nat → Nat → List Nat
  | _, 0 => []
  | lo, c + 1 =>
      (lo + (c + 1) / 2) ::
        (medianSeq lo ((c + 1) / 2) ++
          medianSeq (lo + (c + 1) / 2 + 1) (c - (c + 1) / 2))
  termination_by _ c => c
  decreasing_by
    · omega
    · omega

/-- The balanced tree that median-first insertion of the key range
`lo, …, lo+c-1` produces. -/
def balTree : Nat → Nat → TreeNode Nat Unit
  | _, 0 => .leaf
  | lo, c + 1 =>
      .node (lo + (c + 1) / 2) ()
        (balTree lo ((c + 1) / 2))
        (balTree (lo + (c + 1) / 2 + 1) (c - (c + 1) / 2))
  termination_by _ c => c
  decreasing_by
    · omega
    · omega

/-- `balance_rec` value of `balTree _ c`: one more than the value for
half the size. -/
def balHeight : Nat → Int
  | 0 => 0
  | c + 1 => balHeight ((c + 1) / 2) + 1
  termination_by c => c
  decreasing_by omega

/-- Pair a key list with unit values for `insertList`. -/
def toInsertPairs (ks : List κ) : List (κ × Unit) :=
  ks.map fun k => (k, ())

/-- Key-only insertion replay (unit values), the `TreeNode`-level view
of `insertList` used by the balance claims. -/
def insertKeysU (t : TreeNode Nat Unit) : List Nat → TreeNode Nat Unit
  | [] => t
  | k :: ks => insertKeysU (t.insert_rec k ()).1 ks

/-- Concrete sample index used to witness the delete specification. -/
def sampleBST : BinarySearchTree Nat Nat :=
  { root := .node 2 20 (.node 1 10 .leaf .leaf) (.node 3 30 .leaf .leaf),
    size := 3 }

/-! ## Termination measures for the graph loops -/

/-- Strictly decreasing measure of the Dijkstra loop: pending heap
entries plus, per unsettled vertex, one settling pop and its pushes. -/
def dijkstraMeasure (g : Graph W) (s : DijkstraState W) : Nat :=
  s.pq.length +
    ((g.vertices.filter fun v => decide (v ∉ s.visited)).map
      fun v => 1 + (g.adjacency_list v).length).sum

/-- Strictly decreasing measure of the `find_all_paths` loop: total
expansion-tree size of the pending queue entries. -/
def fapMeasure [AddCommMonoid W] (g : Graph W) (e : Nat)
    (queue : List (Nat × List Nat × W)) : Nat :=
  (queue.map fun ent => fapTreeCount g e g.vertices.length ent.1 ent.2.1).sum

/-- Invariant of the `dijkstra` loop state relative to the start vertex
`s` and the target `endV` (established at entry, preserved by the
discard and settle steps, and true of the final state): every finite
distance is attained by a path; heap entries are attained upper bounds
on their vertex's distance; every unsettled vertex with a finite
distance has a matching heap entry; settled vertices carry their exact
shortest distance; edges out of settled vertices (except a settled
target, whose relaxation the early `break` skips) are relaxed; the start
distance is `0`; the `previous` chain of every settled vertex
reconstructs a path attaining its distance; `previous` entries point to
settled vertices and record the relaxation that wrote them. -/
structure DStateInv [LinearOrderedAddCommMonoid W] (g : Graph W)
    (s endV : Nat) (σ : DijkstraState W) : Prop where
  attained : ∀ v, σ.dist v = ⊤ ∨
    ∃ (c : W) (p : List Nat), σ.dist v = (c : WithTop W) ∧
      IsPathCost g p s v c
  pqSound : ∀ e ∈ σ.pq, σ.dist e.2 ≤ (e.1 : WithTop W) ∧ e.2 ∈ g.vertices ∧
    ∃ p, IsPathCost g p s e.2 e.1
  fresh : ∀ v, v ∉ σ.visited → ∀ c : W, σ.dist v = (c : WithTop W) →
    (c, v) ∈ σ.pq
  settled : ∀ v ∈ σ.visited, ∃ c : W, σ.dist v = (c : WithTop W) ∧
    (∃ p, IsPathCost g p s v c) ∧ ∀ q c', IsPathCost g q s v c' → c ≤ c'
  relaxed : ∀ u ∈ σ.visited, u ≠ endV → ∀ nw ∈ g.adjacency_list u,
    σ.dist nw.1 ≤ σ.dist u + (nw.2 : WithTop W)
  distStart : σ.dist s = ((0 : W) : WithTop W)
  recOk : ∀ v ∈ σ.visited, ∃ (c : W) (p : List Nat),
    σ.dist v = (c : WithTop W) ∧
    IsPathCost g p s v c ∧ p.length ≤ σ.visited.length ∧
    ∀ f, p.length ≤ f + 1 → reconstructPath σ.prev f v = p
  prevSound : ∀ v u, σ.prev v = some u → u ∈ σ.visited ∧
    ∃ (w cu : W), (v, w) ∈ g.adjacency_list u ∧ σ.dist u = (cu : WithTop W) ∧
      σ.dist v = ((cu + w : W) : WithTop W)
  prevSome : ∀ v, v ≠ s → σ.dist v ≠ ⊤ → σ.prev v ≠ none
  visSub : ∀ v ∈ σ.visited, v ∈ g.vertices
  visNodup : σ.visited.Nodup

/-! ## Theorems -/

/-! ### Stack: push order, `to_list`, and the `set_max_size(0)` slip -/

theorem stack_pushAll_sound {α : Type} (xs : List α) :
    ∀ s : Stack α, (s.pushAll xs).2 = true →
      (s.pushAll xs).1.items = s.items ++ xs ∧
      (s.pushAll xs).1.max_size = s.max_size := by
  induction xs with
  | nil => intro s _; simp [Stack.pushAll]
  | cons x xs ih =>
      intro s h
      cases hf : s.is_full with
      | true =>
          simp only [Stack.pushAll, Stack.push, hf, if_true, Bool.false_and,
            Bool.true_eq_false] at h
          simp at h
      | false =>
          simp only [Stack.pushAll, Stack.push, hf] at h ⊢
          simp only [Bool.false_eq_true, if_false, Bool.true_and] at h ⊢
          rcases ih _ h with ⟨h1, h2⟩
          refine ⟨?_, h2⟩
          rw [h1]
          simp

/-- C10: replaying any sequence of successful pushes onto a fresh stack
makes `to_list` return exactly that sequence in push order (oldest
first, most recent last), whose last element is what `peek` and `pop`
would yield. -/
theorem stack_to_list_push_order {α : Type} (max : Option Nat) (xs : List α)
    (h : ((Stack.mkEmpty α max).pushAll xs).2 = true) :
    ((Stack.mkEmpty α max).pushAll xs).1.to_list = xs ∧
    ((Stack.mkEmpty α max).pushAll xs).1.peek = xs.getLast? ∧
    ((Stack.mkEmpty α max).pushAll xs).1.pop.2 = xs.getLast? := by
  have h1 : ((Stack.mkEmpty α max).pushAll xs).1.items = xs := by
    simpa [Stack.mkEmpty] using (stack_pushAll_sound xs (Stack.mkEmpty α max) h).1
  refine ⟨h1, ?_, ?_⟩ <;> cases xs <;>
    simp [Stack.peek, Stack.pop, Stack.is_empty, Stack.to_list, h1]

theorem stack_to_list_push_order_witness :
    ((Stack.mkEmpty Nat none).pushAll [4, 7, 9]).2 = true ∧
    ((Stack.mkEmpty Nat none).pushAll [4, 7, 9]).1.to_list = [4, 7, 9] ∧
    ((Stack.mkEmpty Nat none).pushAll [4, 7, 9]).1.peek = some 9 :=
  ⟨by decide, (stack_to_list_push_order none [4, 7, 9] (by decide)).1,
    ((stack_to_list_push_order none [4, 7, 9] (by decide)).2.1).trans (by decide)⟩

/-- C4: evaluation of the claim's failing input.  `set_max_size(0)` on a
non-empty stack stores the bound `0` but, because `items[-0:]` is the
whole list, keeps every item — the claimed invariant
`len(items) ≤ max_size` fails, and the stack does not keep "the 0
most-recently-pushed items". -/
theorem stack_set_max_size_zero_no_trim :
    (Stack.set_max_size { items := [1], max_size := none } (some 0) : Stack Nat).items
        = [1] ∧
    (Stack.set_max_size { items := [1], max_size := none } (some 0) : Stack Nat).max_size
        = some 0 ∧
    ¬ (Stack.set_max_size { items := [1], max_size := none } (some 0) : Stack Nat).items.length
        ≤ 0 ∧
    (Queue.set_max_size { items := [1], max_size := none } (some 0) : Queue Nat).items
        = [] := by
  refine ⟨by decide, by decide, by decide, ?_⟩
  decide

/-! ### Uniform failure discipline (C7) -/

theorem search_rec_none_delete_rec {κ ν : Type} [LinearOrder κ]
    (t : TreeNode κ ν) (k : κ) (h : t.search_rec k = none) :
    t.delete_rec k = (t, false) := by
  induction t with
  | leaf => rfl
  | node nk nv l r ihl ihr =>
      by_cases hk : k = nk
      · simp [TreeNode.search_rec, hk] at h
      · by_cases hlt : k < nk
        · have hl : l.search_rec k = none := by
            simpa [TreeNode.search_rec, hk, hlt] using h
          unfold TreeNode.delete_rec
          simp [hlt, ihl hl]
        · have hgt : nk < k := lt_of_le_of_ne (not_lt.mp hlt) (Ne.symm hk)
          have hr : r.search_rec k = none := by
            simpa [TreeNode.search_rec, hk, hlt] using h
          unfold TreeNode.delete_rec
          simp [hlt, hgt, ihr hr]

/-- C7: every fallible container operation whose precondition fails —
push/enqueue on a full container, pop/dequeue/peek on an empty one,
get/update/insert/delete at an out-of-range position, removal or search
of a missing value, delete of a missing key — returns `false`/`none`
(totality of the model embeds "never raises") and leaves the container
state exactly unchanged. -/
theorem uniform_failure_discipline {α κ ν : Type} [DecidableEq α] [LinearOrder κ] :
    (∀ (s : Stack α) (x : α), s.is_full = true → s.push x = (s, false)) ∧
    (∀ s : Stack α, s.is_empty = true → s.pop = (s, none) ∧ s.peek = none) ∧
    (∀ (q : Queue α) (x : α), q.is_full = true → q.enqueue x = (q, false)) ∧
    (∀ q : Queue α, q.is_empty = true →
      q.dequeue = (q, none) ∧ q.peek = none ∧ q.peek_back = none) ∧
    (∀ (q : Queue α) (x : α), x ∉ q.items → q.remove x = (q, false)) ∧
    (∀ (l : DoublyLinkedList α) (p : Int), p < 0 ∨ (l.size : Int) ≤ p →
      (∀ y : α, l.update_at_position p y = (l, false)) ∧
      l.get_at_position p = none ∧
      l.delete_at_position p = (l, none)) ∧
    (∀ (l : DoublyLinkedList α) (p : Int) (x : α), p < 0 ∨ (l.size : Int) < p →
      l.insert_at_position x p = (l, false)) ∧
    (∀ (l : DoublyLinkedList α) (v : α), v ∉ l.items →
      l.delete_by_value v = (l, false) ∧ l.search v = none) ∧
    (∀ (t : BinarySearchTree κ ν) (k : κ), t.search k = none →
      t.delete k = (t, false)) := by
  refine ⟨?_, ?_, ?_, ?_, ?_, ?_, ?_, ?_, ?_⟩
  · intro s x h; simp [Stack.push, h]
  · intro s h; constructor <;> simp [Stack.pop, Stack.peek, h]
  · intro q x h; simp [Queue.enqueue, h]
  · intro q h
    refine ⟨?_, ?_, ?_⟩ <;> simp [Queue.dequeue, Queue.peek, Queue.peek_back, h]
  · intro q x h
    have hc : q.items.contains x = false := by
      rw [Bool.eq_false_iff]
      intro hcc
      exact h (List.elem_iff.mp hcc)
    simp [Queue.remove, hc, h]
  · intro l p h
    have hp : p < 0 ∨ (l.size : Int) ≤ p := h
    refine ⟨fun y => ?_, ?_, ?_⟩ <;>
      simp [DoublyLinkedList.update_at_position, DoublyLinkedList.get_at_position,
        DoublyLinkedList.delete_at_position]
      <;> intro h0 <;> omega
  · intro l p x h
    rcases h with h | h <;>
      simp [DoublyLinkedList.insert_at_position]
      <;> intro h0 <;> omega
  · intro l v h
    have hc : l.items.contains v = false := by
      rw [Bool.eq_false_iff]
      intro hcc
      exact h (List.elem_iff.mp hcc)
    constructor
    · simp [DoublyLinkedList.delete_by_value, hc, h]
    · show l.items.indexOf? v = none
      rw [List.indexOf?_eq_none_iff]
      intro x hx
      simp only [beq_iff_eq]
      exact fun e => h (e ▸ hx)
  · intro t k h
    have := search_rec_none_delete_rec t.root k h
    simp [BinarySearchTree.delete, this]

theorem uniform_failure_discipline_witness :
    (Stack.push { items := [5], max_size := some 1 } (7 : Nat)
      = ({ items := [5], max_size := some 1 }, false)) ∧
    (Stack.pop ({ items := [], max_size := none } : Stack Nat)
      = ({ items := [], max_size := none }, none)) ∧
    (Queue.dequeue ({ items := [], max_size := none } : Queue Nat)
      = ({ items := [], max_size := none }, none)) ∧
    (Queue.remove ({ items := [1, 2], max_size := none } : Queue Nat) 3
      = ({ items := [1, 2], max_size := none }, false)) ∧
    (DoublyLinkedList.get_at_position ({ items := [8], size := 1 } : DoublyLinkedList Nat) 1
      = none) ∧
    (DoublyLinkedList.insert_at_position ({ items := [8], size := 1 } : DoublyLinkedList Nat) 9 (-1)
      = ({ items := [8], size := 1 }, false)) ∧
    (BinarySearchTree.delete
        ({ root := .node 5 0 .leaf .leaf, size := 1 } : BinarySearchTree Nat Nat) 3
      = ({ root := .node 5 0 .leaf .leaf, size := 1 }, false)) := by
  have h := uniform_failure_discipline (α := Nat) (κ := Nat) (ν := Nat)
  refine ⟨h.1 _ _ (by decide), (h.2.1 _ (by decide)).1,
    (h.2.2.2.1 _ (by decide)).1, h.2.2.2.2.1 _ _ (by decide),
    (h.2.2.2.2.2.1 _ 1 (by decide)).2.1,
    h.2.2.2.2.2.2.1 _ (-1) 9 (by decide), h.2.2.2.2.2.2.2.2 _ 3 (by decide)⟩

/-! ### PositionalList: `insert_at_position` (C5) -/

theorem insertIdx_eq_take_drop {α : Type} (x : α) :
    ∀ (n : Nat) (l : List α), n ≤ l.length →
      l.insertIdx n x = l.take n ++ x :: l.drop n := by
  intro n
  induction n with
  | zero => intro l _; simp
  | succ n ih =>
      intro l h
      cases l with
      | nil => simp at h
      | cons a l =>
          simp only [List.insertIdx_succ_cons, List.take_succ_cons, List.drop_succ_cons,
            List.cons_append, List.cons.injEq, true_and]
          exact ih l (by simpa using h)

theorem get?_take_cons_drop {α : Type} (x : α) (n : Nat) (l : List α)
    (h : n ≤ l.length) : (l.take n ++ x :: l.drop n).get? n = some x := by
  rw [List.get?_eq_getElem?,
    List.getElem?_append_right (by simp [Nat.min_eq_left h])]
  simp [Nat.min_eq_left h]

/-- C5: on a list state whose `size` counter agrees with its contents
(as every reachable state does), `insert_at_position(x, p)` with
`0 ≤ p ≤ size` succeeds, puts `x` at index `p` while keeping every old
element in relative order (the new contents are
`take p ++ [x] ++ drop p`), makes `get_at_position(p)` return `x`, and
grows `size` by one; any `p` outside the range fails with the state
unchanged. -/
theorem dll_insert_at_position_spec {α : Type} (l : DoublyLinkedList α)
    (hwf : l.size = l.items.length) (x : α) (p : Int) :
    (0 ≤ p ∧ p ≤ (l.size : Int) →
      (l.insert_at_position x p).2 = true ∧
      (l.insert_at_position x p).1.items
        = l.items.take p.toNat ++ x :: l.items.drop p.toNat ∧
      (l.insert_at_position x p).1.size = l.size + 1 ∧
      (l.insert_at_position x p).1.get_at_position p = some x) ∧
    ((p < 0 ∨ (l.size : Int) < p) → l.insert_at_position x p = (l, false)) := by
  constructor
  · rintro ⟨hp0, hps⟩
    have hnn : ¬(p < 0 ∨ p > (l.size : Int)) := by omega
    have hlen : p.toNat ≤ l.items.length := by omega
    have hchar : l.insert_at_position x p =
        ({ items := l.items.take p.toNat ++ x :: l.items.drop p.toNat,
           size := l.size + 1 }, true) := by
      unfold DoublyLinkedList.insert_at_position
      rw [if_neg hnn]
      by_cases h0 : p = 0
      · subst h0
        rw [if_pos rfl]
        simp [DoublyLinkedList.insert_at_beginning]
      · rw [if_neg h0]
        by_cases hs : p = (l.size : Int)
        · rw [if_pos hs]
          have hts : p.toNat = l.items.length := by omega
          simp [DoublyLinkedList.insert_at_end, hts, List.take_length,
            List.drop_length, hwf]
        · rw [if_neg hs]
          rw [insertIdx_eq_take_drop x p.toNat l.items hlen]
    have hitems : (l.insert_at_position x p).1.items
        = l.items.take p.toNat ++ x :: l.items.drop p.toNat := by rw [hchar]
    have hsize : (l.insert_at_position x p).1.size = l.size + 1 := by rw [hchar]
    have hflag : (l.insert_at_position x p).2 = true := by rw [hchar]
    refine ⟨hflag, hitems, hsize, ?_⟩
    have hbound : ¬(p < 0 ∨ p ≥ ((l.insert_at_position x p).1.size : Int)) := by
      rw [hsize]; omega
    rw [DoublyLinkedList.get_at_position, if_neg hbound, hitems]
    exact get?_take_cons_drop x p.toNat l.items hlen
  · intro h
    have : p < 0 ∨ p > (l.size : Int) := by omega
    simp [DoublyLinkedList.insert_at_position, this]

theorem dll_insert_at_position_spec_witness :
    ((0 : Int) ≤ 1 ∧ (1 : Int) ≤ ((2 : Nat) : Int)) ∧
    (DoublyLinkedList.insert_at_position ({ items := [10, 30], size := 2 } :
        DoublyLinkedList Nat) 20 1).1.items = [10, 20, 30] ∧
    (DoublyLinkedList.insert_at_position ({ items := [10, 30], size := 2 } :
        DoublyLinkedList Nat) 20 1).1.get_at_position 1 = some 20 :=
  ⟨⟨by decide, by decide⟩,
    ((dll_insert_at_position_spec { items := [10, 30], size := 2 } rfl 20 1).1
      ⟨by decide, by decide⟩).2.1.trans (by decide),
    ((dll_insert_at_position_spec { items := [10, 30], size := 2 } rfl 20 1).1
      ⟨by decide, by decide⟩).2.2.2⟩

/-! ### OrderedIndex: sorted inorder traversal (C2) -/

theorem keys_node {κ ν : Type} (k : κ) (v : ν) (l r : TreeNode κ ν) :
    (TreeNode.node k v l r).keys = l.keys ++ k :: r.keys := by
  simp [TreeNode.keys, TreeNode.inorder]

theorem mem_keys_insert_rec {κ ν : Type} [LinearOrder κ] (k : κ) (v : ν) :
    ∀ (t : TreeNode κ ν) (x : κ), x ∈ (t.insert_rec k v).1.keys →
      x ∈ t.keys ∨ x = k := by
  intro t
  induction t with
  | leaf =>
      intro x hx
      simp [TreeNode.insert_rec, keys_node, TreeNode.keys, TreeNode.inorder] at hx
      exact Or.inr hx
  | node nk nv l r ihl ihr =>
      intro x hx
      by_cases hk : k = nk
      · simp only [TreeNode.insert_rec, if_pos hk, keys_node] at hx
        simp only [keys_node]
        exact Or.inl hx
      · by_cases hlt : k < nk
        · simp only [TreeNode.insert_rec, if_neg hk, if_pos hlt, keys_node,
            List.mem_append, List.mem_cons] at hx
          rcases hx with hx | hx
          · rcases ihl x hx with h | h
            · exact Or.inl (by simp [keys_node, h])
            · exact Or.inr h
          · exact Or.inl (by simp [keys_node, hx])
        · simp only [TreeNode.insert_rec, if_neg hk, if_neg hlt, keys_node,
            List.mem_append, List.mem_cons] at hx
          rcases hx with hx | hx | hx
          · exact Or.inl (by simp [keys_node, hx])
          · exact Or.inl (by simp [keys_node, hx])
          · rcases ihr x hx with h | h
            · exact Or.inl (by simp [keys_node, h])
            · exact Or.inr h

theorem insert_rec_ordered {κ ν : Type} [LinearOrder κ] (k : κ) (v : ν) :
    ∀ t : TreeNode κ ν, t.Ordered → (t.insert_rec k v).1.Ordered := by
  intro t
  induction t with
  | leaf =>
      intro _
      simp [TreeNode.insert_rec, TreeNode.Ordered, TreeNode.keys, TreeNode.inorder]
  | node nk nv l r ihl ihr =>
      intro ho
      rcases ho with ⟨hl, hr, hol, hor⟩
      by_cases hk : k = nk
      · simp only [TreeNode.insert_rec, if_pos hk]
        exact ⟨hl, hr, hol, hor⟩
      · by_cases hlt : k < nk
        · simp only [TreeNode.insert_rec, if_neg hk, if_pos hlt]
          refine ⟨?_, hr, ihl hol, hor⟩
          intro x hx
          rcases mem_keys_insert_rec k v l x hx with h | h
          · exact hl x h
          · exact h ▸ hlt
        · have hgt : nk < k := lt_of_le_of_ne (not_lt.mp hlt) (Ne.symm hk)
          simp only [TreeNode.insert_rec, if_neg hk, if_neg hlt]
          refine ⟨hl, ?_, hol, ihr hor⟩
          intro x hx
          rcases mem_keys_insert_rec k v r x hx with h | h
          · exact hr x h
          · exact h ▸ hgt

theorem ordered_keys_pairwise {κ ν : Type} [LinearOrder κ] :
    ∀ t : TreeNode κ ν, t.Ordered → t.keys.Pairwise (· < ·) := by
  intro t
  induction t with
  | leaf => intro _; simp [TreeNode.keys, TreeNode.inorder]
  | node nk nv l r ihl ihr =>
      rintro ⟨hl, hr, hol, hor⟩
      rw [keys_node, List.pairwise_append]
      refine ⟨ihl hol, ?_, ?_⟩
      · rw [List.pairwise_cons]
        exact ⟨hr, ihr hor⟩
      · intro x hx y hy
        rcases List.mem_cons.mp hy with rfl | hy
        · exact hl x hx
        · exact (hl x hx).trans (hr y hy)

theorem insertList_ordered {κ ν : Type} [LinearOrder κ] (kvs : List (κ × ν)) :
    ∀ t : BinarySearchTree κ ν, t.root.Ordered →
      (t.insertList kvs).root.Ordered := by
  induction kvs with
  | nil => intro t h; exact h
  | cons kv rest ih =>
      intro t h
      exact ih _ (insert_rec_ordered kv.1 kv.2 t.root h)

/-- C2: after any sequence of `insert` calls on an initially empty
`OrderedIndex`, the keys listed by `inorder_traversal` are strictly
ascending (so each key occurs exactly once, however often it was
inserted). -/
theorem bst_inorder_strictly_ascending {κ ν : Type} [LinearOrder κ]
    (kvs : List (κ × ν)) :
    ((((BinarySearchTree.mkEmpty κ ν).insertList kvs).inorder_traversal).map
      Prod.fst).Pairwise (· < ·) := by
  have h : ((BinarySearchTree.mkEmpty κ ν).insertList kvs).root.Ordered :=
    insertList_ordered kvs _ (by simp [BinarySearchTree.mkEmpty, TreeNode.Ordered])
  exact ordered_keys_pairwise _ h

/-! ### OrderedIndex: `is_balanced` (C8) -/

theorem insertList_toInsertPairs_root (ks : List Nat) :
    ∀ t : BinarySearchTree Nat Unit,
      (t.insertList (toInsertPairs ks)).root = insertKeysU t.root ks := by
  induction ks with
  | nil => intro t; rfl
  | cons k ks ih =>
      intro t
      simpa [toInsertPairs, BinarySearchTree.insertList, insertKeysU]
        using ih ((t.insert k ()).1)

theorem rightChain_insert_top (n : Nat) :
    ∀ lo : Nat, ((rightChain lo n).insert_rec (lo + n) ()).1
      = rightChain lo (n + 1) := by
  induction n with
  | zero => intro lo; simp [rightChain, TreeNode.insert_rec]
  | succ n ih =>
      intro lo
      have h1 : ¬(lo + (n + 1) = lo) := by omega
      have h2 : ¬(lo + (n + 1) < lo) := by omega
      have h3 : lo + (n + 1) = (lo + 1) + n := by omega
      simp only [rightChain, TreeNode.insert_rec, if_neg h1, if_neg h2]
      rw [h3, ih (lo + 1)]
      rfl

theorem insertKeysU_range' (N : Nat) :
    insertKeysU .leaf (List.range' 1 N) = rightChain 1 N := by
  induction N with
  | zero => rfl
  | succ N ih =>
      have hcat : List.range' 1 (N + 1) = List.range' 1 N ++ [1 + N] := by
        simp [List.range'_concat]
      have hsplit : ∀ (t : TreeNode Nat Unit) (xs ys : List Nat),
          insertKeysU t (xs ++ ys) = insertKeysU (insertKeysU t xs) ys := by
        intro t xs
        induction xs generalizing t with
        | nil => intro ys; rfl
        | cons x xs ihx => intro ys; simp [insertKeysU, ihx]
      rw [hcat, hsplit, ih]
      simpa [insertKeysU] using rightChain_insert_top N 1

theorem rightChain_balance_rec (n : Nat) :
    ∀ lo : Nat, (rightChain lo n).balance_rec
      = if n ≤ 2 then (n : Int) else -1 := by
  induction n with
  | zero => intro lo; simp [rightChain, TreeNode.balance_rec]
  | succ n ih =>
      intro lo
      by_cases h2 : n + 1 ≤ 2
      · have hn : n = 0 ∨ n = 1 := by omega
        rcases hn with rfl | rfl <;>
          norm_num [rightChain, TreeNode.balance_rec]
      · have h3 : ¬(n ≤ 2) ∨ n = 2 := by omega
        rcases h3 with h3 | rfl
        · simp only [rightChain, TreeNode.balance_rec, ih, if_neg h3]
          norm_num
          rw [if_neg h2]
        · norm_num [rightChain, TreeNode.balance_rec]

theorem medianSeq_mem_bounds :
    ∀ c lo x : Nat, x ∈ medianSeq lo c → lo ≤ x ∧ x < lo + c := by
  intro c
  induction c using Nat.strong_induction_on with
  | _ c ih =>
      intro lo x hx
      match c with
      | 0 => simp [medianSeq] at hx
      | c' + 1 =>
          rw [medianSeq] at hx
          rcases List.mem_cons.mp hx with rfl | hx
          · omega
          · rcases List.mem_append.mp hx with hx | hx
            · have := ih ((c' + 1) / 2) (by omega) lo x hx
              omega
            · have := ih (c' - (c' + 1) / 2) (by omega) (lo + (c' + 1) / 2 + 1) x hx
              omega

theorem insertKeysU_node_split :
    ∀ (ws : List Nat) (k : Nat) (l r : TreeNode Nat Unit),
      (∀ w ∈ ws, w ≠ k) →
      insertKeysU (.node k () l r) ws
        = .node k () (insertKeysU l (ws.filter fun w => decide (w < k)))
            (insertKeysU r (ws.filter fun w => decide (k < w))) := by
  intro ws
  induction ws with
  | nil => intro k l r _; simp [insertKeysU]
  | cons w ws ih =>
      intro k l r hne
      have hwk : w ≠ k := hne w (by simp)
      by_cases hlt : w < k
      · have hnotgt : ¬(k < w) := by omega
        simp only [insertKeysU, TreeNode.insert_rec, if_neg hwk, if_pos hlt,
          List.filter_cons, decide_eq_true_eq, hlt, if_true, hnotgt,
          decide_True, decide_False, if_false]
        rw [ih _ _ _ fun y hy => hne y (by simp [hy])]
        rfl
      · have hgt : k < w := by omega
        have hnotlt : ¬(w < k) := hlt
        simp only [insertKeysU, TreeNode.insert_rec, if_neg hwk, if_neg hnotlt,
          List.filter_cons, decide_eq_true_eq, hgt, hnotlt, if_true,
          decide_True, decide_False, if_false]
        rw [ih _ _ _ fun y hy => hne y (by simp [hy])]
        rfl

theorem insertKeysU_medianSeq :
    ∀ c lo : Nat, insertKeysU .leaf (medianSeq lo c) = balTree lo c := by
  intro c
  induction c using Nat.strong_induction_on with
  | _ c ih =>
      intro lo
      match c with
      | 0 => simp [medianSeq, balTree, insertKeysU]
      | c' + 1 =>
          rw [medianSeq]
          have hne : ∀ w ∈ medianSeq lo ((c' + 1) / 2) ++
              medianSeq (lo + (c' + 1) / 2 + 1) (c' - (c' + 1) / 2),
              w ≠ lo + (c' + 1) / 2 := by
            intro w hw
            rcases List.mem_append.mp hw with hw | hw
            · have := medianSeq_mem_bounds _ _ _ hw; omega
            · have := medianSeq_mem_bounds _ _ _ hw; omega
          have hstep : insertKeysU TreeNode.leaf
              ((lo + (c' + 1) / 2) :: (medianSeq lo ((c' + 1) / 2) ++
                medianSeq (lo + (c' + 1) / 2 + 1) (c' - (c' + 1) / 2)))
            = insertKeysU (.node (lo + (c' + 1) / 2) () .leaf .leaf)
              (medianSeq lo ((c' + 1) / 2) ++
                medianSeq (lo + (c' + 1) / 2 + 1) (c' - (c' + 1) / 2)) := rfl
          rw [hstep, insertKeysU_node_split _ _ _ _ hne]
          have hfl : (medianSeq lo ((c' + 1) / 2) ++
              medianSeq (lo + (c' + 1) / 2 + 1) (c' - (c' + 1) / 2)).filter
                (fun w => decide (w < lo + (c' + 1) / 2))
              = medianSeq lo ((c' + 1) / 2) := by
            rw [List.filter_append]
            have h1 : (medianSeq lo ((c' + 1) / 2)).filter
                (fun w => decide (w < lo + (c' + 1) / 2))
                = medianSeq lo ((c' + 1) / 2) := by
              apply List.filter_eq_self.mpr
              intro a ha
              have := medianSeq_mem_bounds _ _ _ ha
              simp only [decide_eq_true_eq]
              omega
            have h2 : (medianSeq (lo + (c' + 1) / 2 + 1) (c' - (c' + 1) / 2)).filter
                (fun w => decide (w < lo + (c' + 1) / 2)) = [] := by
              apply List.filter_eq_nil_iff.mpr
              intro a ha
              have := medianSeq_mem_bounds _ _ _ ha
              simp only [decide_eq_true_eq]
              omega
            rw [h1, h2, List.append_nil]
          have hfr : (medianSeq lo ((c' + 1) / 2) ++
              medianSeq (lo + (c' + 1) / 2 + 1) (c' - (c' + 1) / 2)).filter
                (fun w => decide (lo + (c' + 1) / 2 < w))
              = medianSeq (lo + (c' + 1) / 2 + 1) (c' - (c' + 1) / 2) := by
            rw [List.filter_append]
            have h1 : (medianSeq lo ((c' + 1) / 2)).filter
                (fun w => decide (lo + (c' + 1) / 2 < w)) = [] := by
              apply List.filter_eq_nil_iff.mpr
              intro a ha
              have := medianSeq_mem_bounds _ _ _ ha
              simp only [decide_eq_true_eq]
              omega
            have h2 : (medianSeq (lo + (c' + 1) / 2 + 1) (c' - (c' + 1) / 2)).filter
                (fun w => decide (lo + (c' + 1) / 2 < w))
                = medianSeq (lo + (c' + 1) / 2 + 1) (c' - (c' + 1) / 2) := by
              apply List.filter_eq_self.mpr
              intro a ha
              have := medianSeq_mem_bounds _ _ _ ha
              simp only [decide_eq_true_eq]
              omega
            rw [h1, h2, List.nil_append]
          rw [hfl, hfr, ih ((c' + 1) / 2) (by omega) lo,
            ih (c' - (c' + 1) / 2) (by omega) (lo + (c' + 1) / 2 + 1)]
          rw [balTree]

theorem balHeight_nonneg : ∀ c : Nat, 0 ≤ balHeight c := by
  intro c
  induction c using Nat.strong_induction_on with
  | _ c ih =>
      match c with
      | 0 => simp [balHeight]
      | c' + 1 =>
          rw [balHeight]
          have := ih ((c' + 1) / 2) (by omega)
          omega

theorem balHeight_mono : ∀ n m : Nat, m ≤ n → balHeight m ≤ balHeight n := by
  intro n
  induction n using Nat.strong_induction_on with
  | _ n ih =>
      intro m hmn
      match n, m with
      | n, 0 =>
          have h0 : balHeight 0 = 0 := by rw [balHeight]
          rw [h0]
          exact balHeight_nonneg n
      | n' + 1, m' + 1 =>
          rw [balHeight, balHeight]
          have h2 : (m' + 1) / 2 ≤ (n' + 1) / 2 := by omega
          have := ih ((n' + 1) / 2) (by omega) ((m' + 1) / 2) h2
          omega

theorem balHeight_succ_le : ∀ n : Nat, balHeight (n + 1) ≤ balHeight n + 1 := by
  intro n
  match n with
  | 0 => simp [balHeight]
  | n' + 1 =>
      rw [balHeight]
      have := balHeight_mono (n' + 1) ((n' + 1 + 1) / 2) (by omega)
      omega

theorem balTree_balance_rec :
    ∀ c lo : Nat, (balTree lo c).balance_rec = balHeight c := by
  intro c
  induction c using Nat.strong_induction_on with
  | _ c ih =>
      intro lo
      match c with
      | 0 => simp [balTree, TreeNode.balance_rec, balHeight]
      | c' + 1 =>
          rw [balTree]
          have hL := ih ((c' + 1) / 2) (by omega) lo
          have hR := ih (c' - (c' + 1) / 2) (by omega) (lo + (c' + 1) / 2 + 1)
          have hLnn := balHeight_nonneg ((c' + 1) / 2)
          have hRnn := balHeight_nonneg (c' - (c' + 1) / 2)
          have hmono : balHeight (c' - (c' + 1) / 2) ≤ balHeight ((c' + 1) / 2) :=
            balHeight_mono _ _ (by omega)
          have hstep : balHeight ((c' + 1) / 2)
              ≤ balHeight (c' - (c' + 1) / 2) + 1 := by
            have h1 : (c' + 1) / 2 ≤ (c' - (c' + 1) / 2) + 1 := by omega
            exact (balHeight_mono _ _ h1).trans
              (balHeight_succ_le (c' - (c' + 1) / 2))
          have habs : |balHeight ((c' + 1) / 2) - balHeight (c' - (c' + 1) / 2)| ≤ 1 :=
            abs_le.mpr ⟨by omega, by omega⟩
          simp only [TreeNode.balance_rec, hL, hR]
          rw [if_neg (by omega : ¬(balHeight ((c' + 1) / 2) = -1)),
            if_neg (by omega : ¬(balHeight (c' - (c' + 1) / 2) = -1)),
            if_neg (not_lt.mpr habs), max_eq_left hmono, balHeight]

theorem get_height_rec_ge {κ ν : Type} :
    ∀ t : TreeNode κ ν, -1 ≤ t.get_height_rec := by
  intro t
  induction t with
  | leaf => simp [TreeNode.get_height_rec]
  | node k v l r ihl ihr =>
      simp only [TreeNode.get_height_rec]
      omega

theorem balance_rec_spec {κ ν : Type} :
    ∀ t : TreeNode κ ν,
      (BalancedP t ∧ t.balance_rec = t.get_height_rec + 1) ∨
      (¬BalancedP t ∧ t.balance_rec = -1) := by
  intro t
  induction t with
  | leaf => exact Or.inl ⟨trivial, by simp [TreeNode.balance_rec, TreeNode.get_height_rec]⟩
  | node k v l r ihl ihr =>
      have hlh := get_height_rec_ge l
      have hrh := get_height_rec_ge r
      rcases ihl with ⟨hbl, hel⟩ | ⟨hbl, hel⟩
      · rcases ihr with ⟨hbr, her⟩ | ⟨hbr, her⟩
        · by_cases hd : 1 < |l.get_height_rec - r.get_height_rec|
          · refine Or.inr ⟨?_, ?_⟩
            · intro hb
              exact absurd hb.1 (not_le.mpr hd)
            · simp only [TreeNode.balance_rec, hel, her]
              have hd2 : l.get_height_rec + 1 - (r.get_height_rec + 1)
                  = l.get_height_rec - r.get_height_rec := by ring
              rw [hd2, if_neg (by omega), if_neg (by omega), if_pos hd]
          · refine Or.inl ⟨⟨not_lt.mp hd, hbl, hbr⟩, ?_⟩
            simp only [TreeNode.balance_rec, hel, her]
            have hd2 : l.get_height_rec + 1 - (r.get_height_rec + 1)
                = l.get_height_rec - r.get_height_rec := by ring
            rw [hd2, if_neg (by omega), if_neg (by omega), if_neg hd]
            simp only [TreeNode.get_height_rec]
            omega
        · refine Or.inr ⟨fun hb => hbr hb.2.2, ?_⟩
          simp only [TreeNode.balance_rec, hel, her]
          rw [if_neg (by omega : ¬(l.get_height_rec + 1 = -1))]
          simp
      · refine Or.inr ⟨fun hb => hbl hb.2.1, ?_⟩
        simp only [TreeNode.balance_rec, hel]
        simp

theorem is_balanced_iff_balancedP {κ ν : Type} (t : BinarySearchTree κ ν) :
    t.is_balanced = true ↔ BalancedP t.root := by
  have hge := get_height_rec_ge t.root
  rcases balance_rec_spec t.root with ⟨hb, he⟩ | ⟨hb, he⟩
  · simp only [BinarySearchTree.is_balanced, he]
    constructor
    · intro _; exact hb
    · intro _
      simp only [bne_iff_ne, ne_eq]
      omega
  · simp only [BinarySearchTree.is_balanced, he]
    constructor
    · intro h; simp at h
    · intro h; exact absurd h hb

/-- C8: inserting keys `1..N` in ascending order into an empty
`OrderedIndex` yields an unbalanced tree (`is_balanced = false`) for
every `N ≥ 3`, while the median-first recursive-split order for the same
keys yields `is_balanced = true`; in general `is_balanced` is `true`
exactly when at every node the child subtree heights differ by at
most 1. -/
theorem is_balanced_spec (N : Nat) (hN : 3 ≤ N) :
    ((BinarySearchTree.mkEmpty Nat Unit).insertList
      (toInsertPairs (List.range' 1 N))).is_balanced = false ∧
    ((BinarySearchTree.mkEmpty Nat Unit).insertList
      (toInsertPairs (medianSeq 1 N))).is_balanced = true ∧
    ∀ (κ ν : Type) (t : BinarySearchTree κ ν),
      t.is_balanced = true ↔ BalancedP t.root := by
  refine ⟨?_, ?_, fun κ ν t => is_balanced_iff_balancedP t⟩
  · have hroot : ((BinarySearchTree.mkEmpty Nat Unit).insertList
        (toInsertPairs (List.range' 1 N))).root = rightChain 1 N := by
      rw [insertList_toInsertPairs_root]
      exact insertKeysU_range' N
    have hbal := rightChain_balance_rec N 1
    rw [if_neg (by omega : ¬N ≤ 2)] at hbal
    simp [BinarySearchTree.is_balanced, hroot, hbal]
  · have hroot : ((BinarySearchTree.mkEmpty Nat Unit).insertList
        (toInsertPairs (medianSeq 1 N))).root = balTree 1 N := by
      rw [insertList_toInsertPairs_root]
      exact insertKeysU_medianSeq N 1
    have hbal := balTree_balance_rec N 1
    have hnn := balHeight_nonneg N
    simp only [BinarySearchTree.is_balanced, hroot, hbal, bne_iff_ne, ne_eq]
    omega

theorem is_balanced_spec_witness :
    3 ≤ 3 ∧
    ((BinarySearchTree.mkEmpty Nat Unit).insertList
      (toInsertPairs (List.range' 1 3))).is_balanced = false ∧
    ((BinarySearchTree.mkEmpty Nat Unit).insertList
      (toInsertPairs (medianSeq 1 3))).is_balanced = true :=
  ⟨by decide, (is_balanced_spec 3 (by decide)).1, (is_balanced_spec 3 (by decide)).2.1⟩

/-! ### OrderedIndex: `delete` (C3) -/

theorem search_rec_eq_none_iff {κ ν : Type} [LinearOrder κ] :
    ∀ t : TreeNode κ ν, t.Ordered → ∀ k : κ,
      (t.search_rec k = none ↔ k ∉ t.keys) := by
  intro t
  induction t with
  | leaf => intro _ k; simp [TreeNode.search_rec, TreeNode.keys, TreeNode.inorder]
  | node nk nv l r ihl ihr =>
      rintro ⟨hl, hr, hol, hor⟩ k
      rw [keys_node]
      by_cases hk : k = nk
      · subst hk
        simp [TreeNode.search_rec]
      · by_cases hlt : k < nk
        · rw [TreeNode.search_rec, if_neg hk, if_pos hlt, ihl hol k]
          constructor
          · intro h hmem
            rcases List.mem_append.mp hmem with hm | hm
            · exact h hm
            · rcases List.mem_cons.mp hm with rfl | hm
              · exact hk rfl
              · exact absurd hlt (lt_asymm (hr k hm))
          · intro h hm
            exact h (List.mem_append.mpr (Or.inl hm))
        · have hgt : nk < k := lt_of_le_of_ne (not_lt.mp hlt) (Ne.symm hk)
          rw [TreeNode.search_rec, if_neg hk, if_neg hlt, ihr hor k]
          constructor
          · intro h hmem
            rcases List.mem_append.mp hmem with hm | hm
            · exact absurd hgt (lt_asymm (hl k hm))
            · rcases List.mem_cons.mp hm with rfl | hm
              · exact hk rfl
              · exact h hm
          · intro h hm
            exact h (List.mem_append.mpr (Or.inr (List.mem_cons.mpr (Or.inr hm))))

theorem find_min_from_head {κ ν : Type} :
    ∀ (l : TreeNode κ ν) (k : κ) (v : ν) (r : TreeNode κ ν),
      (TreeNode.node k v l r).inorder.head? = some (TreeNode.find_min_from k v l) := by
  intro l
  induction l with
  | leaf =>
      intro k v r
      simp [TreeNode.inorder, TreeNode.find_min_from]
  | node k' v' l' r' ihl ihr =>
      intro k v r
      show ((TreeNode.node k' v' l' r').inorder ++ (k, v) :: r.inorder).head?
        = some (TreeNode.find_min_from k' v' l')
      rw [List.head?_append, ihl k' v' r']
      rfl

theorem keys_head_find_min {κ ν : Type} (k : κ) (v : ν) (l r : TreeNode κ ν) :
    (TreeNode.node k v l r).keys.head? = some (TreeNode.find_min_from k v l).1 := by
  show ((TreeNode.node k v l r).inorder.map Prod.fst).head? = _
  rw [List.head?_map, find_min_from_head l k v r]
  rfl

theorem delete_rec_spec {κ ν : Type} [LinearOrder κ] :
    ∀ t : TreeNode κ ν, t.Ordered → ∀ k : κ,
      (t.delete_rec k).1.Ordered ∧
      (t.delete_rec k).1.keys = t.keys.erase k ∧
      ((t.delete_rec k).2 = true ↔ k ∈ t.keys) := by
  intro t
  induction t with
  | leaf =>
      intro _ k
      refine ⟨trivial, ?_, ?_⟩ <;>
        simp [TreeNode.delete_rec, TreeNode.keys, TreeNode.inorder]
  | node nk nv l r ihl ihr =>
      rintro ⟨hl, hr, hol, hor⟩ k
      by_cases hlt : k < nk
      · have hk : k ≠ nk := ne_of_lt hlt
        obtain ⟨ho', hkeys', hflag'⟩ := ihl hol k
        unfold TreeNode.delete_rec
        rw [if_pos hlt]
        refine ⟨⟨?_, hr, ho', hor⟩, ?_, ?_⟩
        · intro x hx
          exact hl x (List.mem_of_mem_erase (hkeys' ▸ hx))
        · rw [keys_node, keys_node, hkeys']
          by_cases hkin : k ∈ l.keys
          · rw [List.erase_append_left _ hkin]
          · rw [List.erase_of_not_mem hkin]
            have hwhole : k ∉ l.keys ++ nk :: r.keys := by
              intro hc
              rcases List.mem_append.mp hc with hm | hm
              · exact hkin hm
              · rcases List.mem_cons.mp hm with rfl | hm
                · exact hk rfl
                · exact absurd hlt (lt_asymm (hr k hm))
            rw [List.erase_of_not_mem hwhole]
        · rw [hflag', keys_node]
          constructor
          · intro hm; exact List.mem_append.mpr (Or.inl hm)
          · intro hm
            rcases List.mem_append.mp hm with hm | hm
            · exact hm
            · rcases List.mem_cons.mp hm with rfl | hm
              · exact absurd rfl hk
              · exact absurd hlt (lt_asymm (hr k hm))
      · by_cases hgt : nk < k
        · have hk : k ≠ nk := (ne_of_lt hgt).symm
          obtain ⟨ho', hkeys', hflag'⟩ := ihr hor k
          unfold TreeNode.delete_rec
          rw [if_neg hlt, if_pos hgt]
          refine ⟨⟨hl, ?_, hol, ho'⟩, ?_, ?_⟩
          · intro x hx
            exact hr x (List.mem_of_mem_erase (hkeys' ▸ hx))
          · rw [keys_node, keys_node, hkeys']
            have hnotl : k ∉ l.keys := fun hm => absurd hgt (lt_asymm (hl k hm))
            rw [List.erase_append_right _ hnotl,
              List.erase_cons_tail (by simpa using Ne.symm hk)]
          · rw [hflag', keys_node]
            constructor
            · intro hm
              exact List.mem_append.mpr (Or.inr (List.mem_cons.mpr (Or.inr hm)))
            · intro hm
              rcases List.mem_append.mp hm with hm | hm
              · exact absurd hgt (lt_asymm (hl k hm))
              · rcases List.mem_cons.mp hm with rfl | hm
                · exact absurd rfl hk
                · exact hm
        · have hk : k = nk := le_antisymm (not_lt.mp hgt) (not_lt.mp hlt)
          subst hk
          have hmemk : k ∈ (TreeNode.node k nv l r).keys := by
            rw [keys_node]
            exact List.mem_append.mpr (Or.inr (List.mem_cons.mpr (Or.inl rfl)))
          have hnotl : k ∉ l.keys := fun hm => lt_irrefl k (hl k hm)
          unfold TreeNode.delete_rec
          rw [if_neg (lt_irrefl k), if_neg (lt_irrefl k)]
          cases l with
          | leaf =>
              refine ⟨hor, ?_, by simp [hmemk]⟩
              rw [keys_node]
              simp [TreeNode.keys, TreeNode.inorder]
          | node lk lv ll lr =>
              cases r with
              | leaf =>
                  refine ⟨hol, ?_, by simp [hmemk]⟩
                  rw [keys_node k nv (TreeNode.node lk lv ll lr) TreeNode.leaf,
                    List.erase_append_right _ hnotl, List.erase_cons_head]
                  simp [TreeNode.keys, TreeNode.inorder]
              | node rk rv rl rr =>
                  obtain ⟨hoP, hkeysP, hflagP⟩ :=
                    ihr hor (TreeNode.find_min_from rk rv rl).1
                  have hhead := keys_head_find_min rk rv rl rr
                  obtain ⟨tl, htl⟩ : ∃ tl, (TreeNode.node rk rv rl rr).keys
                      = (TreeNode.find_min_from rk rv rl).1 :: tl := by
                    cases hc : (TreeNode.node rk rv rl rr).keys with
                    | nil => rw [hc] at hhead; simp at hhead
                    | cons a as =>
                        rw [hc] at hhead
                        simp only [List.head?_cons, Option.some.injEq] at hhead
                        exact ⟨as, by rw [hhead]⟩
                  have hsmem : (TreeNode.find_min_from rk rv rl).1
                      ∈ (TreeNode.node rk rv rl rr).keys := by
                    rw [htl]; exact List.mem_cons_self _ _
                  have hsort := ordered_keys_pairwise _ hor
                  have htlgt : ∀ x ∈ tl, (TreeNode.find_min_from rk rv rl).1 < x := by
                    rw [htl] at hsort
                    exact (List.pairwise_cons.mp hsort).1
                  have hkeysP' : ((TreeNode.node rk rv rl rr).delete_rec
                      (TreeNode.find_min_from rk rv rl).1).1.keys = tl := by
                    rw [hkeysP, htl, List.erase_cons_head]
                  refine ⟨⟨?_, ?_, hol, hoP⟩, ?_, by simp [hmemk]⟩
                  · intro x hx
                    exact (hl x hx).trans (hr _ hsmem)
                  · intro x hx
                    rw [hkeysP'] at hx
                    exact htlgt x hx
                  · rw [keys_node k nv (TreeNode.node lk lv ll lr)
                        (TreeNode.node rk rv rl rr),
                      List.erase_append_right _ hnotl, List.erase_cons_head, htl,
                      keys_node (TreeNode.find_min_from rk rv rl).1
                        (TreeNode.find_min_from rk rv rl).2
                        (TreeNode.node lk lv ll lr)
                        ((TreeNode.node rk rv rl rr).delete_rec
                          (TreeNode.find_min_from rk rv rl).1).1,
                      hkeysP']

/-- C3: on any reachable tree state (the ordering invariant holds and the
`size` counter counts the keys), deleting a present key `k` — including
the two-child case resolved by in-order-successor promotion — returns
`true`, makes `search(k)` absent afterwards, and shrinks `size` by
exactly 1; deleting an absent key returns `false` and leaves the state
(contents and size) unchanged. -/
theorem bst_delete_spec {κ ν : Type} [LinearOrder κ] (t : BinarySearchTree κ ν)
    (ho : t.root.Ordered) (hsz : t.size = t.root.keys.length) (k : κ) :
    (k ∈ t.root.keys →
      (t.delete k).2 = true ∧
      (t.delete k).1.search k = none ∧
      (t.delete k).1.size + 1 = t.size) ∧
    (k ∉ t.root.keys → t.delete k = (t, false)) := by
  obtain ⟨ho', hkeys', hflag'⟩ := delete_rec_spec t.root ho k
  constructor
  · intro hmem
    have hflag : (t.root.delete_rec k).2 = true := hflag'.mpr hmem
    refine ⟨?_, ?_, ?_⟩
    · simp [BinarySearchTree.delete, hflag]
    · have hnodup : t.root.keys.Nodup := (ordered_keys_pairwise _ ho).nodup
      have hnot : k ∉ (t.root.delete_rec k).1.keys := by
        rw [hkeys']
        exact List.Nodup.not_mem_erase hnodup
      have hs := (search_rec_eq_none_iff _ ho' k).mpr hnot
      simpa [BinarySearchTree.delete, BinarySearchTree.search, hflag] using hs
    · have hlen : 0 < t.root.keys.length :=
        List.length_pos.mpr (List.ne_nil_of_mem hmem)
      simp only [BinarySearchTree.delete, hflag, if_true]
      omega
  · intro hmem
    have hnone := (search_rec_eq_none_iff t.root ho k).mpr hmem
    have hdel := search_rec_none_delete_rec t.root k hnone
    simp [BinarySearchTree.delete, hdel]

theorem bst_delete_spec_witness :
    (2 : Nat) ∈ sampleBST.root.keys ∧
    (sampleBST.delete 2).2 = true ∧
    (sampleBST.delete 2).1.search 2 = none ∧
    (sampleBST.delete 2).1.size + 1 = sampleBST.size ∧
    sampleBST.delete 7 = (sampleBST, false) := by
  have hord : sampleBST.root.Ordered := by
    simp [sampleBST, TreeNode.Ordered, TreeNode.keys, TreeNode.inorder]
  have h2 := bst_delete_spec sampleBST hord (by decide) 2
  have h7 := bst_delete_spec sampleBST hord (by decide) 7
  have hp := h2.1 (by decide)
  exact ⟨by decide, hp.1, hp.2.1, hp.2.2, h7.2 (by decide)⟩

/-! ### `find_all_paths`: result cap and the trivial-path short circuit (C9) -/

theorem fapLoop_length_le {W : Type} [LinearOrderedAddCommMonoid W]
    (g : Graph W) (e max_paths : Nat) :
    ∀ (fuel : Nat) (queue : List (Nat × List Nat × W))
      (paths : List (List Nat × W)), paths.length ≤ max_paths →
      (fapLoop g e max_paths fuel queue paths).length ≤ max_paths := by
  intro fuel
  induction fuel with
  | zero => intro queue paths h; exact h
  | succ fuel ih =>
      intro queue paths h
      rw [fapLoop.eq_def]
      dsimp only
      by_cases hful : paths.length ≥ max_paths
      · rw [if_pos hful]; exact h
      · rw [if_neg hful]
        rcases queue with _ | ⟨⟨current, path, dist⟩, rest⟩
        · exact h
        · dsimp only
          by_cases hend : current = e
          · rw [if_pos hend]
            exact ih _ _ (by simp; omega)
          · rw [if_neg hend]
            exact ih _ _ h

theorem sortByDistance_length {W : Type} [LinearOrder W]
    (l : List (List Nat × W)) : (sortByDistance l).length = l.length := by
  unfold sortByDistance
  exact (List.perm_insertionSort _ l).length_eq

/-- C9: for distinct known endpoints the returned list never exceeds
`max_paths` (each loop iteration records at most one completed path and
the loop stops at the cap); but a known `start = end` short-circuits to
the single trivial path of distance 0 before the cap is consulted, even
when `max_paths = 0`. -/
theorem find_all_paths_cap (g : Graph W) [LinearOrderedAddCommMonoid W]
    (s e max_paths : Nat) :
    (s ≠ e → (g.find_all_paths s e max_paths).length ≤ max_paths) ∧
    (s ∈ g.vertices → s = e → g.find_all_paths s e max_paths = [([s], 0)]) := by
  constructor
  · intro hne
    rw [Graph.find_all_paths]
    by_cases hv : s ∈ g.vertices ∧ e ∈ g.vertices
    · rw [if_pos hv, if_neg hne, sortByDistance_length]
      exact fapLoop_length_le g e max_paths _ _ [] (by simp)
    · rw [if_neg hv]
      simp
  · intro hs he
    subst he
    rw [Graph.find_all_paths, if_pos ⟨hs, hs⟩, if_pos rfl]

theorem find_all_paths_cap_witness :
    ((0 : Nat) ≠ 1 ∧
      ((buildGraph [.edge 0 1 (1 : Int), .edge 0 1 2]).find_all_paths 0 1 1).length ≤ 1) ∧
    ((0 : Nat) ∈ (buildGraph [.edge 0 1 (1 : Int)]).vertices ∧
      (buildGraph [.edge 0 1 (1 : Int)]).find_all_paths 0 0 0 = [([0], 0)]) :=
  ⟨⟨by decide,
      (find_all_paths_cap (buildGraph [.edge 0 1 (1 : Int), .edge 0 1 2]) 0 1 1).1
        (by decide)⟩,
    ⟨by decide,
      (find_all_paths_cap (buildGraph [.edge 0 1 (1 : Int)]) 0 0 0).2 (by decide) rfl⟩⟩

/-! ### Graph construction well-formedness -/

theorem mem_add_vertex {W : Type} (g : Graph W) (v x : Nat) :
    x ∈ (g.add_vertex v).vertices ↔ x ∈ g.vertices ∨ x = v := by
  rw [Graph.add_vertex]
  by_cases h : v ∈ g.vertices
  · rw [if_pos h]
    constructor
    · exact Or.inl
    · rintro (hx | rfl)
      · exact hx
      · exact h
  · rw [if_neg h]
    simp

theorem add_vertex_wf {W : Type} (g : Graph W) (v : Nat) (h : g.Wf) :
    (g.add_vertex v).Wf := by
  refine ⟨?_, ?_, ?_⟩
  · rw [Graph.add_vertex]
    by_cases hv : v ∈ g.vertices
    · rw [if_pos hv]; exact h.nodup
    · rw [if_neg hv]
      refine List.Nodup.append h.nodup (List.nodup_singleton v) ?_
      intro x hx hx'
      rw [List.mem_singleton] at hx'
      exact hv (hx' ▸ hx)
  · intro u nw hnw
    exact (mem_add_vertex g v nw.1).mpr (Or.inl (h.closed u nw hnw))
  · intro u hne
    exact (mem_add_vertex g v u).mpr (Or.inl (h.keyed u hne))

theorem mem_add_edge_adj {W : Type} (g : Graph W) (a b : Nat) (w : W)
    (u : Nat) (nw : Nat × W)
    (hnw : nw ∈ (g.add_edge a b w).adjacency_list u) :
    nw ∈ ((g.add_vertex a).add_vertex b).adjacency_list u ∨
      nw = (b, w) ∨ nw = (a, w) := by
  simp only [Graph.add_edge, adjUpdate] at hnw
  by_cases hub : u = b
  · subst hub
    rw [if_pos rfl] at hnw
    by_cases hba : u = a
    · subst hba
      rw [if_pos rfl] at hnw
      rcases List.mem_append.mp hnw with hm | hm
      · rcases List.mem_append.mp hm with hm2 | hm2
        · exact Or.inl hm2
        · exact Or.inr (Or.inl (List.mem_singleton.mp hm2))
      · exact Or.inr (Or.inr (List.mem_singleton.mp hm))
    · rw [if_neg hba] at hnw
      rcases List.mem_append.mp hnw with hm | hm
      · exact Or.inl hm
      · exact Or.inr (Or.inr (List.mem_singleton.mp hm))
  · rw [if_neg hub] at hnw
    by_cases hua : u = a
    · subst hua
      rw [if_pos rfl] at hnw
      rcases List.mem_append.mp hnw with hm | hm
      · exact Or.inl hm
      · exact Or.inr (Or.inl (List.mem_singleton.mp hm))
    · rw [if_neg hua] at hnw
      exact Or.inl hnw

theorem add_edge_vertices {W : Type} (g : Graph W) (a b : Nat) (w : W) :
    (g.add_edge a b w).vertices = ((g.add_vertex a).add_vertex b).vertices := rfl

theorem add_edge_wf {W : Type} (g : Graph W) (a b : Nat) (w : W) (h : g.Wf) :
    (g.add_edge a b w).Wf := by
  have h1 : ((g.add_vertex a).add_vertex b).Wf :=
    add_vertex_wf _ b (add_vertex_wf g a h)
  have hmema : a ∈ ((g.add_vertex a).add_vertex b).vertices :=
    (mem_add_vertex _ b a).mpr (Or.inl ((mem_add_vertex g a a).mpr (Or.inr rfl)))
  have hmemb : b ∈ ((g.add_vertex a).add_vertex b).vertices :=
    (mem_add_vertex _ b b).mpr (Or.inr rfl)
  refine ⟨h1.nodup, ?_, ?_⟩
  · intro u nw hnw
    show nw.1 ∈ ((g.add_vertex a).add_vertex b).vertices
    rcases mem_add_edge_adj g a b w u nw hnw with hm | hm | hm
    · exact h1.closed u nw hm
    · rw [hm]; exact hmemb
    · rw [hm]; exact hmema
  · intro u hne
    show u ∈ ((g.add_vertex a).add_vertex b).vertices
    simp only [Graph.add_edge, adjUpdate] at hne
    by_cases hub : u = b
    · rw [hub]; exact hmemb
    · rw [if_neg hub] at hne
      by_cases hua : u = a
      · rw [hua]; exact hmema
      · rw [if_neg hua] at hne
        exact h1.keyed u hne

theorem buildGraphFrom_wf {W : Type} (ops : List (BuildOp W)) :
    ∀ g : Graph W, g.Wf → (buildGraphFrom g ops).Wf := by
  induction ops with
  | nil => intro g h; exact h
  | cons op rest ih =>
      intro g h
      rw [buildGraphFrom]
      apply ih
      cases op with
      | vertex v => exact add_vertex_wf g v h
      | edge a b w => exact add_edge_wf g a b w h

theorem buildGraph_wf {W : Type} (ops : List (BuildOp W)) :
    (buildGraph ops).Wf := by
  apply buildGraphFrom_wf
  exact ⟨List.nodup_nil, by simp [Graph.emptyGraph], by simp [Graph.emptyGraph]⟩

theorem buildGraphFrom_nonneg {W : Type} [LinearOrder W] [Zero W]
    (ops : List (BuildOp W)) :
    ∀ g : Graph W, opsNonneg ops = true →
      (∀ u, ∀ nw ∈ g.adjacency_list u, 0 ≤ nw.2) →
      ∀ u, ∀ nw ∈ (buildGraphFrom g ops).adjacency_list u, 0 ≤ nw.2 := by
  induction ops with
  | nil => intro g _ hg; exact hg
  | cons op rest ih =>
      intro g hw hg
      have hw' : opsNonneg rest = true := by
        simp only [opsNonneg, List.all_cons, Bool.and_eq_true] at hw
        exact hw.2
      rw [buildGraphFrom]
      apply ih _ hw'
      cases op with
      | vertex v => exact hg
      | edge a b w =>
          intro u nw hnw
          rcases mem_add_edge_adj g a b w u nw hnw with hm | hm | hm
          · exact hg u nw hm
          · rw [hm]
            simp only [opsNonneg, List.all_cons, Bool.and_eq_true,
              decide_eq_true_eq] at hw
            exact hw.1
          · rw [hm]
            simp only [opsNonneg, List.all_cons, Bool.and_eq_true,
              decide_eq_true_eq] at hw
            exact hw.1

theorem buildGraph_nonneg {W : Type} [LinearOrder W] [Zero W]
    (ops : List (BuildOp W)) (hw : opsNonneg ops = true) :
    ∀ u, ∀ nw ∈ (buildGraph ops).adjacency_list u, 0 ≤ nw.2 := by
  apply buildGraphFrom_nonneg ops _ hw
  simp [Graph.emptyGraph]

/-! ### `find_all_paths` completeness under the cap (C6) -/

theorem nodup_subset_length_le {l1 l2 : List Nat} (hn : l1.Nodup)
    (hs : ∀ x ∈ l1, x ∈ l2) : l1.length ≤ l2.length := by
  classical
  calc l1.length = l1.toFinset.card := (List.toFinset_card_of_nodup hn).symm
  _ ≤ l2.toFinset.card := Finset.card_le_card (fun x hx => by
      rw [List.mem_toFinset] at hx ⊢
      exact hs x hx)
  _ ≤ l2.length := l2.toFinset_card_le

theorem filter_child_facts {W : Type} (g : Graph W) (v : Nat)
    (p : List Nat) (hg : g.Wf) (nw : Nat × W)
    (hnw : nw ∈ (g.get_neighbors v).filter (fun nw => !p.contains nw.1)) :
    nw.1 ∈ g.vertices ∧ nw.1 ∉ p ∧ (nw.1, nw.2) ∈ g.adjacency_list v := by
  rcases List.mem_filter.mp hnw with ⟨hmem, hpred⟩
  refine ⟨hg.closed v nw hmem, ?_, hmem⟩
  intro hin
  rw [Bool.not_eq_eq_eq_not, Bool.not_true] at hpred
  have hc : p.contains nw.1 = true := List.elem_iff.mpr hin
  rw [hpred] at hc
  exact Bool.false_ne_true hc

theorem simplePathsFrom_stable {W : Type} [AddCommMonoid W] (g : Graph W)
    (hg : g.Wf) (endV : Nat) :
    ∀ (fuel₁ fuel₂ : Nat) (v : Nat) (p : List Nat) (d : W),
      p.Nodup → (∀ x ∈ p, x ∈ g.vertices) →
      g.vertices.length < p.length + fuel₁ →
      g.vertices.length < p.length + fuel₂ →
      simplePathsFrom g endV fuel₁ v p d = simplePathsFrom g endV fuel₂ v p d := by
  intro fuel₁
  induction fuel₁ with
  | zero =>
      intro fuel₂ v p d hnd hsub h₁ _
      exact absurd (nodup_subset_length_le hnd hsub) (by omega)
  | succ f₁ ih =>
      intro fuel₂ v p d hnd hsub h₁ h₂
      match fuel₂ with
      | 0 => exact absurd (nodup_subset_length_le hnd hsub) (by omega)
      | f₂ + 1 =>
          rw [simplePathsFrom, simplePathsFrom]
          by_cases hv : v = endV
          · rw [if_pos hv, if_pos hv]
          · rw [if_neg hv, if_neg hv]
            rw [List.flatMap, List.flatMap]
            congr 1
            apply List.map_congr_left
            intro nw hnw
            obtain ⟨hvert, hnotin, _⟩ := filter_child_facts g v p hg nw hnw
            exact ih f₂ nw.1 (p ++ [nw.1]) (d + nw.2)
              (by simp [List.nodup_append, hnd, hnotin])
              (by intro x hx
                  rcases List.mem_append.mp hx with hx | hx
                  · exact hsub x hx
                  · rw [List.mem_singleton.mp hx]; exact hvert)
              (by simp; omega) (by simp; omega)

theorem fapTreeCount_stable {W : Type} [AddCommMonoid W] (g : Graph W)
    (hg : g.Wf) (endV : Nat) :
    ∀ (fuel₁ fuel₂ : Nat) (v : Nat) (p : List Nat),
      p.Nodup → (∀ x ∈ p, x ∈ g.vertices) →
      g.vertices.length < p.length + fuel₁ →
      g.vertices.length < p.length + fuel₂ →
      fapTreeCount g endV fuel₁ v p = fapTreeCount g endV fuel₂ v p := by
  intro fuel₁
  induction fuel₁ with
  | zero =>
      intro fuel₂ v p hnd hsub h₁ _
      exact absurd (nodup_subset_length_le hnd hsub) (by omega)
  | succ f₁ ih =>
      intro fuel₂ v p hnd hsub h₁ h₂
      match fuel₂ with
      | 0 => exact absurd (nodup_subset_length_le hnd hsub) (by omega)
      | f₂ + 1 =>
          rw [fapTreeCount, fapTreeCount]
          by_cases hv : v = endV
          · rw [if_pos hv, if_pos hv]
          · rw [if_neg hv, if_neg hv]
            congr 2
            apply List.map_congr_left
            intro nw hnw
            obtain ⟨hvert, hnotin, _⟩ := filter_child_facts g v p hg nw hnw
            exact ih f₂ nw.1 (p ++ [nw.1])
              (by simp [List.nodup_append, hnd, hnotin])
              (by intro x hx
                  rcases List.mem_append.mp hx with hx | hx
                  · exact hsub x hx
                  · rw [List.mem_singleton.mp hx]; exact hvert)
              (by simp; omega) (by simp; omega)

theorem fapTreeCount_pos {W : Type} [AddCommMonoid W] (g : Graph W)
    (endV : Nat) : ∀ (fuel v : Nat) (p : List Nat),
      1 ≤ fapTreeCount g endV fuel v p := by
  intro fuel v p
  match fuel with
  | 0 => rw [fapTreeCount]
  | f + 1 =>
      rw [fapTreeCount]
      by_cases hv : v = endV
      · rw [if_pos hv]
      · rw [if_neg hv]; omega

theorem simplePathsFrom_at_end {W : Type} [AddCommMonoid W] (g : Graph W)
    (endV : Nat) (p : List Nat) (d : W) (v : Nat) (hv : v ∈ p)
    (hsub : ∀ x ∈ p, x ∈ g.vertices) :
    simplePathsFrom g endV g.vertices.length endV p d = [(p, d)] := by
  have hpos : 0 < g.vertices.length := by
    have := hsub v hv
    cases hverts : g.vertices with
    | nil => rw [hverts] at this; simp at this
    | cons a as => simp [hverts]
  match hlen : g.vertices.length with
  | 0 => omega
  | n + 1 => rw [simplePathsFrom, if_pos rfl]

theorem fapTreeCount_at_end {W : Type} [AddCommMonoid W] (g : Graph W)
    (endV : Nat) (p : List Nat) (v : Nat) (hv : v ∈ p)
    (hsub : ∀ x ∈ p, x ∈ g.vertices) :
    fapTreeCount g endV g.vertices.length endV p = 1 := by
  have hpos : 0 < g.vertices.length := by
    have := hsub v hv
    cases hverts : g.vertices with
    | nil => rw [hverts] at this; simp at this
    | cons a as => simp [hverts]
  match hlen : g.vertices.length with
  | 0 => omega
  | n + 1 => rw [fapTreeCount, if_pos rfl]

theorem simplePathsFrom_expand {W : Type} [AddCommMonoid W] (g : Graph W)
    (hg : g.Wf) (endV v : Nat) (p : List Nat) (d : W) (hv : v ≠ endV)
    (hvp : v ∈ p) (hnd : p.Nodup) (hsub : ∀ x ∈ p, x ∈ g.vertices) :
    simplePathsFrom g endV g.vertices.length v p d
      = (((g.get_neighbors v).filter (fun nw => !p.contains nw.1)).map
          (fun nw => (nw.1, p ++ [nw.1], d + nw.2))).flatMap
        (fun ent => simplePathsFrom g endV g.vertices.length ent.1 ent.2.1 ent.2.2) := by
  have hpos : 0 < g.vertices.length := by
    have := hsub v hvp
    cases hverts : g.vertices with
    | nil => rw [hverts] at this; simp at this
    | cons a as => simp [hverts]
  have hple : p.length ≤ g.vertices.length := nodup_subset_length_le hnd hsub
  have hppos : 0 < p.length := List.length_pos.mpr (List.ne_nil_of_mem hvp)
  match hlen : g.vertices.length, hple, hpos with
  | n + 1, hple, hpos =>
      rw [simplePathsFrom, if_neg hv, List.flatMap_map]
      rw [List.flatMap, List.flatMap]
      congr 1
      apply List.map_congr_left
      intro nw hnw
      obtain ⟨hvert, hnotin, _⟩ := filter_child_facts g v p hg nw hnw
      apply simplePathsFrom_stable g hg endV
      · simp [List.nodup_append, hnd, hnotin]
      · intro x hx
        rcases List.mem_append.mp hx with hx | hx
        · exact hsub x hx
        · rw [List.mem_singleton.mp hx]
          exact hvert
      · simp only [List.length_append, List.length_singleton]
        omega
      · simp only [List.length_append, List.length_singleton]
        omega

theorem fapTreeCount_expand {W : Type} [AddCommMonoid W] (g : Graph W)
    (hg : g.Wf) (endV v : Nat) (p : List Nat) (hv : v ≠ endV)
    (hvp : v ∈ p) (hnd : p.Nodup) (hsub : ∀ x ∈ p, x ∈ g.vertices) (d : W) :
    fapTreeCount g endV g.vertices.length v p
      = 1 + fapMeasure g endV
          (((g.get_neighbors v).filter (fun nw => !p.contains nw.1)).map
            (fun nw => (nw.1, p ++ [nw.1], d + nw.2))) := by
  have hpos : 0 < g.vertices.length := by
    have := hsub v hvp
    cases hverts : g.vertices with
    | nil => rw [hverts] at this; simp at this
    | cons a as => simp [hverts]
  have hple : p.length ≤ g.vertices.length := nodup_subset_length_le hnd hsub
  have hppos : 0 < p.length := List.length_pos.mpr (List.ne_nil_of_mem hvp)
  match hlen : g.vertices.length, hple, hpos with
  | n + 1, hple, hpos =>
      rw [fapTreeCount, if_neg hv, fapMeasure, List.map_map]
      congr 2
      apply List.map_congr_left
      intro nw hnw
      obtain ⟨hvert, hnotin, _⟩ := filter_child_facts g v p hg nw hnw
      show fapTreeCount g endV n nw.1 (p ++ [nw.1])
        = fapTreeCount g endV g.vertices.length nw.1 (p ++ [nw.1])
      apply fapTreeCount_stable g hg endV
      · simp [List.nodup_append, hnd, hnotin]
      · intro x hx
        rcases List.mem_append.mp hx with hx | hx
        · exact hsub x hx
        · rw [List.mem_singleton.mp hx]
          exact hvert
      · simp only [List.length_append, List.length_singleton]
        omega
      · simp only [List.length_append, List.length_singleton]
        omega

theorem fapLoop_perm {W : Type} [LinearOrderedAddCommMonoid W] (g : Graph W)
    (hg : g.Wf) (endV max_paths : Nat) :
    ∀ (fuel : Nat) (queue : List (Nat × List Nat × W))
      (paths : List (List Nat × W)),
      (∀ ent ∈ queue, ent.2.1.Nodup ∧ (∀ x ∈ ent.2.1, x ∈ g.vertices) ∧
        ent.1 ∈ ent.2.1) →
      fapMeasure g endV queue ≤ fuel →
      paths.length + (queue.flatMap fun ent =>
        simplePathsFrom g endV g.vertices.length ent.1 ent.2.1 ent.2.2).length
        ≤ max_paths →
      (fapLoop g endV max_paths fuel queue paths).Perm
        (paths ++ queue.flatMap fun ent =>
          simplePathsFrom g endV g.vertices.length ent.1 ent.2.1 ent.2.2) := by
  intro fuel
  induction fuel with
  | zero =>
      intro queue paths hwf hmeas hcap
      match queue with
      | [] => simp [fapLoop]
      | ent :: rest =>
          exfalso
          have h1 := fapTreeCount_pos g endV g.vertices.length ent.1 ent.2.1
          have h2 : 1 ≤ fapMeasure g endV (ent :: rest) := by
            rw [fapMeasure, List.map_cons, List.sum_cons]
            omega
          omega
  | succ fuel ih =>
      intro queue paths hwf hmeas hcap
      rw [fapLoop.eq_def]
      dsimp only
      by_cases hful : paths.length ≥ max_paths
      · rw [if_pos hful]
        have hlen0 : (queue.flatMap fun ent =>
            simplePathsFrom g endV g.vertices.length ent.1 ent.2.1 ent.2.2).length
            = 0 := by omega
        rw [List.length_eq_zero] at hlen0
        rw [hlen0, List.append_nil]
      · rw [if_neg hful]
        rcases queue with _ | ⟨⟨v, p, d⟩, rest⟩
        · simp
        · dsimp only
          obtain ⟨hnd, hsub, hvp⟩ := hwf (v, p, d) (List.mem_cons_self _ _)
          have hwfrest : ∀ ent ∈ rest, ent.2.1.Nodup ∧
              (∀ x ∈ ent.2.1, x ∈ g.vertices) ∧ ent.1 ∈ ent.2.1 :=
            fun ent hent => hwf ent (List.mem_cons_of_mem _ hent)
          have hmcons : fapMeasure g endV ((v, p, d) :: rest)
              = fapTreeCount g endV g.vertices.length v p + fapMeasure g endV rest := by
            rw [fapMeasure, List.map_cons, List.sum_cons]
            rfl
          have hfcons : (((v, p, d) :: rest).flatMap fun ent =>
              simplePathsFrom g endV g.vertices.length ent.1 ent.2.1 ent.2.2)
              = simplePathsFrom g endV g.vertices.length v p d
                ++ (rest.flatMap fun ent =>
                  simplePathsFrom g endV g.vertices.length ent.1 ent.2.1 ent.2.2) := by
            rw [List.flatMap_cons]
          by_cases hend : v = endV
          · rw [if_pos hend]
            have hvp' : endV ∈ p := hend ▸ hvp
            have hcomp : simplePathsFrom g endV g.vertices.length v p d = [(p, d)] := by
              rw [hend]
              exact simplePathsFrom_at_end g endV p d endV hvp' hsub
            have hcount : fapTreeCount g endV g.vertices.length v p = 1 := by
              rw [hend]
              exact fapTreeCount_at_end g endV p endV hvp' hsub
            have hrec := ih rest (paths ++ [(p, d)]) hwfrest
              (by rw [hmcons, hcount] at hmeas; omega)
              (by rw [hfcons, hcomp] at hcap
                  simp only [List.length_append, List.length_cons,
                    List.length_singleton] at hcap ⊢
                  omega)
            rw [hfcons, hcomp]
            rw [← List.append_assoc]
            exact hrec
          · rw [if_neg hend]
            have hexp : simplePathsFrom g endV g.vertices.length v p d
                = (((g.get_neighbors v).filter (fun nw => !p.contains nw.1)).map
                    (fun nw => (nw.1, p ++ [nw.1], d + nw.2))).flatMap
                  (fun ent => simplePathsFrom g endV g.vertices.length
                    ent.1 ent.2.1 ent.2.2) :=
              simplePathsFrom_expand g hg endV v p d hend hvp hnd hsub
            have hcnt : fapTreeCount g endV g.vertices.length v p
                = 1 + fapMeasure g endV
                    (((g.get_neighbors v).filter (fun nw => !p.contains nw.1)).map
                      (fun nw => (nw.1, p ++ [nw.1], d + nw.2))) :=
              fapTreeCount_expand g hg endV v p hend hvp hnd hsub d
            have hwfexp : ∀ ent ∈ rest ++
                ((g.get_neighbors v).filter (fun nw => !p.contains nw.1)).map
                  (fun nw => (nw.1, p ++ [nw.1], d + nw.2)),
                ent.2.1.Nodup ∧ (∀ x ∈ ent.2.1, x ∈ g.vertices) ∧
                  ent.1 ∈ ent.2.1 := by
              intro ent hent
              rcases List.mem_append.mp hent with hent | hent
              · exact hwfrest ent hent
              · rcases List.mem_map.mp hent with ⟨nw, hnw, rfl⟩
                obtain ⟨hvert, hnotin, _⟩ := filter_child_facts g v p hg nw hnw
                refine ⟨by simp [List.nodup_append, hnd, hnotin], ?_, by simp⟩
                intro x hx
                rcases List.mem_append.mp hx with hx | hx
                · exact hsub x hx
                · rw [List.mem_singleton.mp hx]
                  exact hvert
            have hmapp : fapMeasure g endV (rest ++
                ((g.get_neighbors v).filter (fun nw => !p.contains nw.1)).map
                  (fun nw => (nw.1, p ++ [nw.1], d + nw.2)))
                = fapMeasure g endV rest + fapMeasure g endV
                    (((g.get_neighbors v).filter (fun nw => !p.contains nw.1)).map
                      (fun nw => (nw.1, p ++ [nw.1], d + nw.2))) := by
              rw [fapMeasure, List.map_append, List.sum_append]
              rfl
            have hfapp : ((rest ++
                ((g.get_neighbors v).filter (fun nw => !p.contains nw.1)).map
                  (fun nw => (nw.1, p ++ [nw.1], d + nw.2))).flatMap fun ent =>
                simplePathsFrom g endV g.vertices.length ent.1 ent.2.1 ent.2.2)
                = (rest.flatMap fun ent =>
                    simplePathsFrom g endV g.vertices.length ent.1 ent.2.1 ent.2.2)
                  ++ ((((g.get_neighbors v).filter (fun nw => !p.contains nw.1)).map
                      (fun nw => (nw.1, p ++ [nw.1], d + nw.2))).flatMap fun ent =>
                    simplePathsFrom g endV g.vertices.length ent.1 ent.2.1 ent.2.2) := by
              rw [List.flatMap_append]
            have hrec := ih (rest ++
                ((g.get_neighbors v).filter (fun nw => !p.contains nw.1)).map
                  (fun nw => (nw.1, p ++ [nw.1], d + nw.2))) paths hwfexp
              (by rw [hmapp]; rw [hmcons, hcnt] at hmeas; omega)
              (by rw [hfapp]
                  rw [hfcons, hexp] at hcap
                  simp only [List.length_append] at hcap ⊢
                  omega)
            refine hrec.trans ?_
            rw [hfapp, hfcons, hexp]
            refine List.Perm.append_left paths ?_
            exact List.perm_append_comm

theorem isPathCost_not_nil {W : Type} [AddCommMonoid W] {g : Graph W}
    {a z : Nat} {c : W} (h : IsPathCost g [] a z c) : False := by
  cases h

theorem isPathCost_head {W : Type} [AddCommMonoid W] {g : Graph W}
    {p : List Nat} {a z : Nat} {c : W} (h : IsPathCost g p a z c) :
    ∃ t, p = a :: t := by
  cases h with
  | single => exact ⟨[], rfl⟩
  | cons _ _ => exact ⟨_, rfl⟩

theorem isPathCost_last {W : Type} [AddCommMonoid W] {g : Graph W} :
    ∀ {p : List Nat} {a z : Nat} {c : W}, IsPathCost g p a z c →
      p.getLast? = some z := by
  intro p
  induction p with
  | nil => intro a z c h; exact absurd h (fun h => isPathCost_not_nil h)
  | cons x t iht =>
      intro a z c h
      cases h with
      | single => rfl
      | cons hedge htail =>
          obtain ⟨t', rfl⟩ := isPathCost_head htail
          rw [List.getLast?_cons_cons]
          exact iht htail

theorem isPathCost_single_inv {W : Type} [AddCommMonoid W] {g : Graph W}
    {a z : Nat} {c : W} (h : IsPathCost g [a] a z c) : z = a ∧ c = 0 := by
  cases h with
  | single => exact ⟨rfl, rfl⟩
  | cons hedge htail => exact absurd htail (fun h => isPathCost_not_nil h)

theorem isPathCost_cons_inv {W : Type} [AddCommMonoid W] {g : Graph W}
    {a b : Nat} {t : List Nat} {z : Nat} {c : W}
    (h : IsPathCost g (a :: b :: t) a z c) :
    ∃ w c', (b, w) ∈ g.adjacency_list a ∧ IsPathCost g (b :: t) b z c' ∧
      c = w + c' := by
  cases h with
  | cons hedge htail =>
      obtain ⟨t', ht'⟩ := isPathCost_head htail
      rw [List.cons.injEq] at ht'
      obtain ⟨hv', -⟩ := ht'
      subst hv'
      exact ⟨_, _, hedge, htail, rfl⟩

theorem nodup_append_singleton {l : List Nat} {n : Nat} (h : l.Nodup)
    (hn : n ∉ l) : (l ++ [n]).Nodup := by
  refine List.Nodup.append h (List.nodup_singleton n) ?_
  intro x hx hx'
  rw [List.mem_singleton] at hx'
  exact hn (hx' ▸ hx)

theorem mem_of_getLast?_nat :
    ∀ (l : List Nat) (a : Nat), l.getLast? = some a → a ∈ l := by
  intro l
  induction l with
  | nil => intro a h; simp at h
  | cons x xs ih =>
      intro a h
      cases xs with
      | nil =>
          simp only [List.getLast?_singleton, Option.some.injEq] at h
          rw [← h]
          exact List.mem_cons_self x []
      | cons y ys =>
          rw [List.getLast?_cons_cons] at h
          exact List.mem_cons_of_mem x (ih a h)

theorem mem_simplePathsFrom_iff {W : Type} [AddCommMonoid W] (g : Graph W)
    (hg : g.Wf) (endV : Nat) :
    ∀ (fuel v : Nat) (p₀ : List Nat) (d : W) (q : List Nat) (c : W),
      (p₀ ++ [v]).Nodup → (∀ x ∈ p₀ ++ [v], x ∈ g.vertices) →
      g.vertices.length < (p₀ ++ [v]).length + fuel →
      ((q, c) ∈ simplePathsFrom g endV fuel v (p₀ ++ [v]) d ↔
        ∃ ext ce, q = p₀ ++ v :: ext ∧ c = d + ce ∧ (p₀ ++ v :: ext).Nodup ∧
          IsPathCost g (v :: ext) v endV ce) := by
  intro fuel
  induction fuel with
  | zero =>
      intro v p₀ d q c hnd hsub hbig
      exact absurd (nodup_subset_length_le hnd hsub) (by omega)
  | succ f ih =>
      intro v p₀ d q c hnd hsub hbig
      rw [simplePathsFrom]
      by_cases hv : v = endV
      · rw [if_pos hv]
        subst hv
        constructor
        · intro hq
          rw [List.mem_singleton, Prod.mk.injEq] at hq
          exact ⟨[], 0, by rw [hq.1], by rw [hq.2, add_zero], hnd,
            IsPathCost.single v⟩
        · rintro ⟨ext, ce, hq, hc, hnd', hpath⟩
          have hext : ext = [] := by
            cases ext with
            | nil => rfl
            | cons n ext' =>
                exfalso
                have hlast := isPathCost_last hpath
                rw [List.getLast?_cons_cons] at hlast
                have hvmem : v ∈ n :: ext' := mem_of_getLast?_nat _ v hlast
                have hndc : (v :: n :: ext').Nodup :=
                  (List.nodup_append.mp hnd').2.1
                exact (List.nodup_cons.mp hndc).1 hvmem
          subst hext
          obtain ⟨-, hce⟩ := isPathCost_single_inv hpath
          rw [List.mem_singleton, Prod.mk.injEq]
          exact ⟨by rw [hq], by rw [hc, hce, add_zero]⟩
      · rw [if_neg hv]
        constructor
        · intro hq
          rw [List.mem_flatMap] at hq
          obtain ⟨nw, hnwmem, hq⟩ := hq
          obtain ⟨hvert, hnotin, hadj⟩ :=
            filter_child_facts g v (p₀ ++ [v]) hg nw hnwmem
          have hih := (ih nw.1 (p₀ ++ [v]) (d + nw.2) q c
            (nodup_append_singleton hnd hnotin)
            (by intro x hx
                rcases List.mem_append.mp hx with hx | hx
                · exact hsub x hx
                · rw [List.mem_singleton.mp hx]; exact hvert)
            (by simp only [List.length_append, List.length_singleton] at hbig ⊢
                omega)).mp hq
          obtain ⟨ext', ce', hq', hc', hnd', hpath'⟩ := hih
          refine ⟨nw.1 :: ext', nw.2 + ce', ?_, ?_, ?_, ?_⟩
          · rw [hq']; simp
          · rw [hc', add_assoc]
          · have : (p₀ ++ [v]) ++ nw.1 :: ext' = p₀ ++ v :: nw.1 :: ext' := by
              simp
            rw [← this]
            exact hnd'
          · exact IsPathCost.cons hadj hpath'
        · rintro ⟨ext, ce, hq, hc, hnd', hpath⟩
          cases ext with
          | nil =>
              obtain ⟨hz, -⟩ := isPathCost_single_inv hpath
              exact absurd hz.symm hv
          | cons n ext' =>
              obtain ⟨w, c', hadj, hpath', hce⟩ := isPathCost_cons_inv hpath
              have hnd2 := List.nodup_append.mp hnd'
              have hvne : v ∉ n :: ext' := (List.nodup_cons.mp hnd2.2.1).1
              have hnp0 : n ∉ p₀ := fun hn =>
                hnd2.2.2 hn (List.mem_cons_of_mem v (List.mem_cons_self n ext'))
              have hnnot : n ∉ p₀ ++ [v] := by
                intro hmem
                rcases List.mem_append.mp hmem with hm | hm
                · exact hnp0 hm
                · rw [List.mem_singleton] at hm
                  exact hvne (hm ▸ List.mem_cons_self n ext')
              rw [List.mem_flatMap]
              refine ⟨(n, w), ?_, ?_⟩
              · rw [List.mem_filter]
                refine ⟨hadj, ?_⟩
                have hcont : (p₀ ++ [v]).contains n = false := by
                  by_contra hcc
                  rw [Bool.not_eq_false] at hcc
                  exact hnnot (List.elem_iff.mp hcc)
                rw [hcont]
                rfl
              · apply (ih n (p₀ ++ [v]) (d + w) q c
                  (nodup_append_singleton hnd hnnot)
                  (by intro x hx
                      rcases List.mem_append.mp hx with hx | hx
                      · exact hsub x hx
                      · rw [List.mem_singleton.mp hx]
                        exact hg.closed v (n, w) hadj)
                  (by simp only [List.length_append, List.length_singleton]
                        at hbig ⊢
                      omega)).mpr
                refine ⟨ext', c', ?_, ?_, ?_, hpath'⟩
                · rw [hq]; simp
                · rw [hc, hce, ← add_assoc]
                · have : (p₀ ++ [v]) ++ n :: ext' = p₀ ++ v :: n :: ext' := by
                    simp
                  rw [this]
                  exact hnd'

/-- C6: on any constructed graph with distinct known endpoints, if the
number of simple `start → end` paths (one per adjacency-entry choice) is
at most `max_paths`, then `find_all_paths` returns exactly those paths
with their distances — a permutation of the exhaustive enumeration,
sorted ascending by total distance — where the enumeration holds exactly
the duplicate-free adjacency walks from `start` to `end` with their
summed weights; unknown endpoints yield the empty list. -/
theorem find_all_paths_complete {W : Type} [LinearOrderedAddCommMonoid W]
    (ops : List (BuildOp W)) (g : Graph W) (hgraph : g = buildGraph ops)
    (s e : Nat) (hs : s ∈ g.vertices) (he : e ∈ g.vertices) (hne : s ≠ e)
    (max_paths : Nat) (hcap : (g.allSimplePaths s e).length ≤ max_paths) :
    (g.find_all_paths s e max_paths).Perm (g.allSimplePaths s e) ∧
    (g.find_all_paths s e max_paths).Pairwise (fun a b => a.2 ≤ b.2) ∧
    (∀ (q : List Nat) (c : W), ((q, c) ∈ g.allSimplePaths s e ↔
      q.Nodup ∧ IsPathCost g q s e c)) ∧
    (∀ s' e' : Nat, s' ∉ g.vertices ∨ e' ∉ g.vertices →
      g.find_all_paths s' e' max_paths = []) := by
  have hwf : g.Wf := hgraph ▸ buildGraph_wf ops
  have hfap : g.find_all_paths s e max_paths
      = sortByDistance (fapLoop g e max_paths
          (fapTreeCount g e g.vertices.length s [s]) [(s, [s], 0)] []) := by
    rw [Graph.find_all_paths, if_pos ⟨hs, he⟩, if_neg hne]
  have hflat : ([((s : Nat), [s], (0 : W))].flatMap fun ent =>
      simplePathsFrom g e g.vertices.length ent.1 ent.2.1 ent.2.2)
      = g.allSimplePaths s e := by
    rw [List.flatMap_cons, List.flatMap_nil, List.append_nil]
    rfl
  have hloop := fapLoop_perm g hwf e max_paths
    (fapTreeCount g e g.vertices.length s [s]) [(s, [s], 0)] []
    (by intro ent hent
        rw [List.mem_singleton] at hent
        subst hent
        refine ⟨List.nodup_singleton s, ?_, List.mem_singleton_self s⟩
        intro x hx
        rw [List.mem_singleton.mp hx]
        exact hs)
    (by simp [fapMeasure])
    (by rw [hflat, List.length_nil]
        omega)
  rw [hflat, List.nil_append] at hloop
  have hsortperm : (g.find_all_paths s e max_paths).Perm
      (g.allSimplePaths s e) := by
    rw [hfap]
    exact (List.perm_insertionSort _ _).trans hloop
  refine ⟨hsortperm, ?_, ?_, ?_⟩
  · rw [hfap]
    haveI : IsTotal (List Nat × W) (fun a b => a.2 ≤ b.2) :=
      ⟨fun a b => le_total a.2 b.2⟩
    haveI : IsTrans (List Nat × W) (fun a b => a.2 ≤ b.2) :=
      ⟨fun a b c hab hbc => le_trans hab hbc⟩
    exact List.sorted_insertionSort _ _
  · intro q c
    have hmem := mem_simplePathsFrom_iff g hwf e g.vertices.length s [] 0 q c
      (by simp)
      (by intro x hx
          simp only [List.nil_append, List.mem_singleton] at hx
          rw [hx]; exact hs)
      (by simp)
    rw [Graph.allSimplePaths]
    have heq : ([] : List Nat) ++ [s] = [s] := rfl
    rw [heq] at hmem
    rw [hmem]
    constructor
    · rintro ⟨ext, ce, hq, hc, hnd, hpath⟩
      rw [List.nil_append] at hq hnd
      subst hq
      rw [hc, zero_add]
      exact ⟨hnd, hpath⟩
    · rintro ⟨hqnd, hpath⟩
      obtain ⟨t, rfl⟩ := isPathCost_head hpath
      exact ⟨t, c, by rw [List.nil_append], by rw [zero_add], by
        rw [List.nil_append]; exact hqnd, hpath⟩
  · intro s' e' hbad
    rw [Graph.find_all_paths, if_neg (by tauto)]

theorem find_all_paths_complete_witness :
    (((buildGraph [.edge 0 1 (1 : Int), .edge 1 2 1, .edge 2 3 1,
        .edge 3 0 1, .edge 0 2 5]).allSimplePaths 0 2).length ≤ 10) ∧
    ((buildGraph [.edge 0 1 (1 : Int), .edge 1 2 1, .edge 2 3 1,
        .edge 3 0 1, .edge 0 2 5]).find_all_paths 0 2 10).Perm
      ((buildGraph [.edge 0 1 (1 : Int), .edge 1 2 1, .edge 2 3 1,
        .edge 3 0 1, .edge 0 2 5]).allSimplePaths 0 2) ∧
    ((buildGraph [.edge 0 1 (1 : Int), .edge 1 2 1, .edge 2 3 1,
        .edge 3 0 1, .edge 0 2 5]).find_all_paths 0 2 10).Pairwise
      (fun a b => a.2 ≤ b.2) :=
  ⟨by decide,
    (find_all_paths_complete _ _ rfl 0 2 (by decide) (by decide) (by decide)
      10 (by decide)).1,
    (find_all_paths_complete _ _ rfl 0 2 (by decide) (by decide) (by decide)
      10 (by decide)).2.1⟩

/-! ### Dijkstra correctness (C1) -/

theorem entryLtb_self {W : Type} [LinearOrder W] (a : W × Nat) :
    entryLtb a a = false := by
  simp [entryLtb]

theorem entryLtb_asymm {W : Type} [LinearOrder W] {a b : W × Nat}
    (h : entryLtb a b = true) : entryLtb b a = false := by
  simp only [entryLtb, decide_eq_true_eq, decide_eq_false_iff_not, not_or,
    not_and, not_lt] at *
  rcases h with h | ⟨h1, h2⟩
  · exact ⟨le_of_lt h, fun he => absurd (he ▸ h) (lt_irrefl _)⟩
  · exact ⟨le_of_eq h1, fun _ => le_of_lt h2⟩

theorem entryLtb_false_trans {W : Type} [LinearOrder W] {a b c : W × Nat}
    (h1 : entryLtb b a = false) (h2 : entryLtb c b = false) :
    entryLtb c a = false := by
  simp only [entryLtb, decide_eq_false_iff_not, not_or, not_and, not_lt]
    at *
  refine ⟨le_trans h1.1 h2.1, fun hca => ?_⟩
  have hba : a.1 = b.1 := le_antisymm h1.1 (hca ▸ h2.1)
  have hcb : b.1 = c.1 := le_antisymm h2.1 (hca.trans hba).le
  exact le_trans (h1.2 hba.symm) (h2.2 hcb.symm)

theorem entryLtb_false_fst_le {W : Type} [LinearOrder W] {f m : W × Nat}
    (h : entryLtb f m = false) : m.1 ≤ f.1 := by
  simp only [entryLtb, decide_eq_false_iff_not, not_or, not_and, not_lt]
    at h
  exact h.1

theorem heapMinAux_mem {W : Type} [LinearOrder W] :
    ∀ (l : List (W × Nat)) (e : W × Nat), heapMinAux e l ∈ e :: l := by
  intro l
  induction l with
  | nil => intro e; simp [heapMinAux]
  | cons f rest ih =>
      intro e
      rw [heapMinAux]
      by_cases hfe : entryLtb f e = true
      · rw [if_pos hfe]
        exact List.mem_cons_of_mem e (ih f)
      · rw [if_neg hfe]
        rcases List.mem_cons.mp (ih e) with h | h
        · exact List.mem_cons.mpr (Or.inl h)
        · exact List.mem_cons_of_mem e (List.mem_cons_of_mem f h)

theorem heapMinAux_min {W : Type} [LinearOrder W] :
    ∀ (l : List (W × Nat)) (e : W × Nat), ∀ f ∈ e :: l,
      entryLtb f (heapMinAux e l) = false := by
  intro l
  induction l with
  | nil =>
      intro e f hf
      rw [List.mem_singleton] at hf
      rw [hf, heapMinAux]
      exact entryLtb_self e
  | cons x rest ih =>
      intro e f hf
      rw [heapMinAux]
      by_cases hxe : entryLtb x e = true
      · rw [if_pos hxe]
        rcases List.mem_cons.mp hf with hfe | hf2
        · rw [hfe]
          exact entryLtb_false_trans (ih x x (List.mem_cons_self x rest))
            (entryLtb_asymm hxe)
        · rcases List.mem_cons.mp hf2 with hfx | hf3
          · rw [hfx]
            exact ih x x (List.mem_cons_self x rest)
          · exact ih x f (List.mem_cons_of_mem x hf3)
      · rw [if_neg hxe]
        have hxe' : entryLtb x e = false := by
          simp only [Bool.not_eq_true] at hxe
          exact hxe
        rcases List.mem_cons.mp hf with hfe | hf2
        · rw [hfe]
          exact ih e e (List.mem_cons_self e rest)
        · rcases List.mem_cons.mp hf2 with hfx | hf3
          · rw [hfx]
            exact entryLtb_false_trans (ih e e (List.mem_cons_self e rest))
              hxe'
          · exact ih e f (List.mem_cons_of_mem e hf3)

theorem heappop_spec {W : Type} [LinearOrder W] {pq rest : List (W × Nat)}
    {m : W × Nat} (h : heappop pq = some (m, rest)) :
    m ∈ pq ∧ rest = pq.erase m ∧ ∀ f ∈ pq, entryLtb f m = false := by
  cases pq with
  | nil => simp [heappop] at h
  | cons e r =>
      simp only [heappop, Option.some.injEq, Prod.mk.injEq] at h
      obtain ⟨h1, h2⟩ := h
      subst h1
      subst h2
      exact ⟨heapMinAux_mem r e, rfl, heapMinAux_min r e⟩

theorem heappop_none {W : Type} [LinearOrder W] {pq : List (W × Nat)}
    (h : heappop pq = none) : pq = [] := by
  cases pq with
  | nil => rfl
  | cons e r => simp [heappop] at h

theorem isPathCost_nonneg {W : Type} [LinearOrderedAddCommMonoid W]
    {g : Graph W} (hnn : ∀ u, ∀ nw ∈ g.adjacency_list u, (0 : W) ≤ nw.2)
    {p : List Nat} {a z : Nat} {c : W} (h : IsPathCost g p a z c) :
    (0 : W) ≤ c := by
  induction h with
  | single v => exact le_refl 0
  | cons hedge _ ih => exact add_nonneg (hnn _ _ hedge) ih

theorem isPathCost_snoc {W : Type} [AddCommMonoid W] {g : Graph W}
    {p : List Nat} {a v : Nat} {c : W} (h : IsPathCost g p a v c)
    {z : Nat} {w : W} (hz : (z, w) ∈ g.adjacency_list v) :
    IsPathCost g (p ++ [z]) a z (c + w) := by
  induction h with
  | single v =>
      have h0 := IsPathCost.cons hz (IsPathCost.single z)
      rw [show (0 : W) + w = w + 0 by rw [zero_add, add_zero]]
      exact h0
  | cons hedge _ ih =>
      rw [List.cons_append, add_assoc]
      exact IsPathCost.cons hedge (ih hz)

theorem reconstructPath_congr (prev prev' : Nat → Option Nat)
    (vis : List Nat) (hagree : ∀ x ∈ vis, prev' x = prev x)
    (hchain : ∀ x y, prev x = some y → y ∈ vis) :
    ∀ (f : Nat) (v : Nat), v ∈ vis →
      reconstructPath prev' f v = reconstructPath prev f v := by
  intro f
  induction f with
  | zero => intro v _; rfl
  | succ f ih =>
      intro v hv
      rw [reconstructPath, reconstructPath, hagree v hv]
      cases hp : prev v with
      | none => rfl
      | some u =>
          dsimp only
          rw [ih u (hchain v u hp)]

theorem relaxNeighbors_spec {W : Type} [LinearOrderedAddCommMonoid W]
    (u : Nat) (d : W) :
    ∀ (l : List (Nat × W)) (σ : DijkstraState W),
      (relaxNeighbors u d l σ).visited = σ.visited ∧
      (∀ v, (relaxNeighbors u d l σ).dist v ≤ σ.dist v) ∧
      (∀ v, ((relaxNeighbors u d l σ).dist v = σ.dist v ∧
          (relaxNeighbors u d l σ).prev v = σ.prev v) ∨
        (v ∉ σ.visited ∧ ∃ w, (v, w) ∈ l ∧
          (relaxNeighbors u d l σ).dist v = ((d + w : W) : WithTop W) ∧
          (relaxNeighbors u d l σ).prev v = some u ∧
          (d + w, v) ∈ (relaxNeighbors u d l σ).pq)) ∧
      (∃ pushed, (relaxNeighbors u d l σ).pq = σ.pq ++ pushed ∧
        pushed.length ≤ l.length ∧
        ∀ e ∈ pushed, (relaxNeighbors u d l σ).dist e.2 ≤ (e.1 : WithTop W) ∧
          e.2 ∉ σ.visited ∧ ∃ w, (e.2, w) ∈ l ∧ e.1 = d + w) ∧
      (∀ nw ∈ l, nw.1 ∈ σ.visited ∨
        (relaxNeighbors u d l σ).dist nw.1 ≤ ((d + nw.2 : W) : WithTop W)) := by
  intro l
  induction l with
  | nil =>
      intro σ
      exact ⟨rfl, fun v => le_refl _, fun v => Or.inl ⟨rfl, rfl⟩,
        ⟨[], by simp [relaxNeighbors], by simp, by simp⟩, by simp⟩
  | cons hd rest ih =>
      obtain ⟨n, w⟩ := hd
      intro σ
      rw [relaxNeighbors]
      by_cases hv : n ∈ σ.visited
      · rw [if_pos hv]
        obtain ⟨R1, R2, R3, ⟨pushed, hpq, hplen, hpush⟩, R5⟩ := ih σ
        refine ⟨R1, R2, ?_, ⟨pushed, hpq, Nat.le_succ_of_le hplen, ?_⟩, ?_⟩
        · intro v
          rcases R3 v with hl | ⟨hnv, w', hw', hrest⟩
          · exact Or.inl hl
          · exact Or.inr ⟨hnv, w', List.mem_cons_of_mem _ hw', hrest⟩
        · intro e he
          obtain ⟨h1, h2, w', hw', h3⟩ := hpush e he
          exact ⟨h1, h2, w', List.mem_cons_of_mem _ hw', h3⟩
        · intro nw hnw
          rcases List.mem_cons.mp hnw with heq | hmem
          · exact Or.inl (heq ▸ hv)
          · exact R5 nw hmem
      · rw [if_neg hv]
        dsimp only
        by_cases hlt : ((d + w : W) : WithTop W) < σ.dist n
        · rw [if_pos hlt]
          obtain ⟨R1, R2, R3, ⟨pushed, hpq, hplen, hpush⟩, R5⟩ :=
            ih { σ with dist := dictSet σ.dist n ((d + w : W) : WithTop W),
                        prev := dictSet σ.prev n (some u),
                        pq := σ.pq ++ [(d + w, n)] }
          have hmd : ∀ v, dictSet σ.dist n ((d + w : W) : WithTop W) v
              = if v = n then ((d + w : W) : WithTop W) else σ.dist v :=
            fun v => rfl
          have hmp : ∀ v, dictSet σ.prev n (some u) v
              = if v = n then some u else σ.prev v := fun v => rfl
          refine ⟨R1, ?_, ?_, ⟨(d + w, n) :: pushed, ?_, ?_, ?_⟩, ?_⟩
          · intro v
            refine (R2 v).trans ?_
            dsimp only
            rw [hmd]
            by_cases hveq : v = n
            · rw [if_pos hveq, hveq]
              exact le_of_lt hlt
            · rw [if_neg hveq]
          · intro v
            rcases R3 v with ⟨hdm, hpm⟩ | ⟨hnv, w', hw', hdm, hpm, hinpq⟩
            · dsimp only at hdm hpm
              rw [hmd] at hdm
              rw [hmp] at hpm
              by_cases hveq : v = n
              · subst hveq
                rw [if_pos rfl] at hdm hpm
                refine Or.inr ⟨hv, w, List.mem_cons_self _ _, hdm, hpm, ?_⟩
                rw [hpq]
                exact List.mem_append_left _
                  (List.mem_append_right _ (List.mem_singleton_self _))
              · rw [if_neg hveq] at hdm hpm
                exact Or.inl ⟨hdm, hpm⟩
            · exact Or.inr ⟨hnv, w', List.mem_cons_of_mem _ hw', hdm, hpm,
                hinpq⟩
          · rw [hpq]
            dsimp only
            rw [List.append_assoc, List.singleton_append]
          · simpa using Nat.succ_le_succ hplen
          · intro e he
            rcases List.mem_cons.mp he with heq | hmem
            · subst heq
              refine ⟨(R2 (d + w, n).2).trans ?_, hv, w,
                List.mem_cons_self _ _, rfl⟩
              dsimp only
              rw [hmd, if_pos rfl]
            · obtain ⟨h1, h2, w', hw', h3⟩ := hpush e hmem
              exact ⟨h1, h2, w', List.mem_cons_of_mem _ hw', h3⟩
          · intro nw hnw
            rcases List.mem_cons.mp hnw with heq | hmem
            · refine Or.inr ?_
              subst heq
              refine (R2 n).trans ?_
              dsimp only
              rw [hmd, if_pos rfl]
            · rcases R5 nw hmem with hl | hr
              · exact Or.inl hl
              · exact Or.inr hr
        · rw [if_neg hlt]
          obtain ⟨R1, R2, R3, ⟨pushed, hpq, hplen, hpush⟩, R5⟩ := ih σ
          refine ⟨R1, R2, ?_, ⟨pushed, hpq, Nat.le_succ_of_le hplen, ?_⟩, ?_⟩
          · intro v
            rcases R3 v with hl | ⟨hnv, w', hw', hrest⟩
            · exact Or.inl hl
            · exact Or.inr ⟨hnv, w', List.mem_cons_of_mem _ hw', hrest⟩
          · intro e he
            obtain ⟨h1, h2, w', hw', h3⟩ := hpush e he
            exact ⟨h1, h2, w', List.mem_cons_of_mem _ hw', h3⟩
          · intro nw hnw
            rcases List.mem_cons.mp hnw with heq | hmem
            · refine Or.inr ?_
              subst heq
              exact (R2 n).trans (not_lt.mp hlt)
            · exact R5 nw hmem

theorem dijkstra_frontier {W : Type} [LinearOrderedAddCommMonoid W]
    {g : Graph W} (hnn : ∀ u, ∀ nw ∈ g.adjacency_list u, (0 : W) ≤ nw.2)
    {s endV : Nat} {σ : DijkstraState W} (hinv : DStateInv g s endV σ)
    (hend : endV ∉ σ.visited) {p : List Nat} {v z : Nat} {c : W}
    (hpath : IsPathCost g p v z c) :
    v = s ∨ v ∈ σ.visited → z ∉ σ.visited →
    ∃ m ∈ σ.pq, ∃ cv : W, σ.dist v = (cv : WithTop W) ∧
      (m.1 : WithTop W) ≤ ((cv + c : W) : WithTop W) := by
  induction hpath with
  | single x =>
      intro hv hz
      have hvs : x = s := by
        rcases hv with h | h
        · exact h
        · exact absurd h hz
      subst hvs
      exact ⟨(0, x), hinv.fresh x hz 0 hinv.distStart, 0, hinv.distStart,
        by simp⟩
  | @cons u v z w p c hedge hrest ih =>
      intro hu hz
      by_cases huv : u ∈ σ.visited
      · obtain ⟨cu, hdu, ⟨pu, hpu⟩, hminu⟩ := hinv.settled u huv
        by_cases hvv : v ∈ σ.visited
        · obtain ⟨m, hm, cv, hdv, hle⟩ := ih (Or.inr hvv) hz
          refine ⟨m, hm, cu, hdu, ?_⟩
          obtain ⟨cv', hdv', _, hminv⟩ := hinv.settled v hvv
          have hcv : cv' = cv := by
            rw [hdv] at hdv'
            exact_mod_cast hdv'.symm
          have hsnoc := isPathCost_snoc hpu hedge
          have h1 : cv ≤ cu + w := hcv ▸ hminv _ _ hsnoc
          calc (m.1 : WithTop W) ≤ ((cv + c : W) : WithTop W) := hle
            _ ≤ ((cu + w + c : W) : WithTop W) :=
              WithTop.coe_le_coe.mpr (add_le_add_right h1 c)
            _ = ((cu + (w + c) : W) : WithTop W) := by rw [add_assoc]
        · have hune : u ≠ endV := fun h => hend (h ▸ huv)
          have hrel := hinv.relaxed u huv hune (v, w) hedge
          rw [hdu, ← WithTop.coe_add] at hrel
          have hne : σ.dist v ≠ ⊤ :=
            ne_top_of_le_ne_top (WithTop.coe_ne_top) hrel
          obtain ⟨cv, hcv⟩ := WithTop.ne_top_iff_exists.mp hne
          refine ⟨(cv, v), hinv.fresh v hvv cv hcv.symm, cu, hdu, ?_⟩
          have h2 : (cv : WithTop W) ≤ ((cu + w : W) : WithTop W) :=
            hcv ▸ hrel
          have h3 : cu + w ≤ cu + (w + c) := by
            rw [← add_assoc]
            exact le_add_of_nonneg_right (isPathCost_nonneg hnn hrest)
          exact h2.trans (WithTop.coe_le_coe.mpr h3)
      · have hus : u = s := hu.resolve_right huv
        subst hus
        refine ⟨(0, u), hinv.fresh u huv 0 hinv.distStart, 0,
          hinv.distStart, WithTop.coe_le_coe.mpr ?_⟩
        rw [zero_add]
        exact add_nonneg (hnn _ _ hedge) (isPathCost_nonneg hnn hrest)

theorem dijkstra_settle_dist {W : Type} [LinearOrderedAddCommMonoid W]
    {g : Graph W} (hnn : ∀ u, ∀ nw ∈ g.adjacency_list u, (0 : W) ≤ nw.2)
    {s endV : Nat} {σ : DijkstraState W} (hinv : DStateInv g s endV σ)
    (hend : endV ∉ σ.visited) {d : W} {u : Nat}
    (hm : (d, u) ∈ σ.pq) (hmin : ∀ f ∈ σ.pq, entryLtb f (d, u) = false)
    (hu : u ∉ σ.visited) :
    σ.dist u = (d : WithTop W) ∧ (∃ p, IsPathCost g p s u d) ∧
      ∀ q c', IsPathCost g q s u c' → d ≤ c' := by
  obtain ⟨hdle, huV, pu, hpu⟩ := hinv.pqSound (d, u) hm
  have hminimal : ∀ q c', IsPathCost g q s u c' → d ≤ c' := by
    intro q c' hq
    obtain ⟨mm, hmm, cv, hdvs, hle⟩ :=
      dijkstra_frontier hnn hinv hend hq (Or.inl rfl) hu
    have hcv0 : cv = 0 := by
      have hds := hinv.distStart
      rw [hdvs] at hds
      exact_mod_cast hds
    subst hcv0
    rw [zero_add] at hle
    have hdm := entryLtb_false_fst_le (hmin mm hmm)
    have hfin : (d : WithTop W) ≤ (c' : WithTop W) :=
      le_trans (WithTop.coe_le_coe.mpr hdm) hle
    exact_mod_cast hfin
  refine ⟨?_, ⟨pu, hpu⟩, hminimal⟩
  rcases hinv.attained u with htop | ⟨cu, pu', hdu, hpu'⟩
  · rw [htop] at hdle
    exact absurd (top_le_iff.mp hdle) WithTop.coe_ne_top
  · rw [hdu] at hdle ⊢
    have h1 : d ≤ cu := hminimal pu' cu hpu'
    have h2 : cu ≤ d := by exact_mod_cast hdle
    rw [le_antisymm h2 h1]

theorem dijkstra_discard_step {W : Type} [LinearOrderedAddCommMonoid W]
    {g : Graph W} {s endV : Nat} {σ : DijkstraState W}
    (hinv : DStateInv g s endV σ) {d : W} {u : Nat} {rest : List (W × Nat)}
    (hpop : heappop σ.pq = some ((d, u), rest)) (hu : u ∈ σ.visited) :
    DStateInv g s endV { σ with pq := rest } ∧
      dijkstraMeasure g { σ with pq := rest } < dijkstraMeasure g σ := by
  obtain ⟨hm, hrest, hminp⟩ := heappop_spec hpop
  constructor
  · refine ⟨hinv.attained, ?_, ?_, hinv.settled, hinv.relaxed,
      hinv.distStart, hinv.recOk, hinv.prevSound, hinv.prevSome,
      hinv.visSub, hinv.visNodup⟩
    · intro e he
      have he' : e ∈ rest := he
      rw [hrest] at he'
      exact hinv.pqSound e (List.mem_of_mem_erase he')
    · intro v hv c hc
      have hin := hinv.fresh v hv c hc
      have hne : (c, v) ≠ (d, u) := by
        intro h
        injection h with h1 h2
        exact hv (h2 ▸ hu)
      show (c, v) ∈ rest
      rw [hrest]
      exact (List.mem_erase_of_ne hne).mpr hin
  · unfold dijkstraMeasure
    dsimp only
    rw [hrest]
    have hlen := List.length_erase_of_mem hm
    have hpos : 0 < σ.pq.length :=
      List.length_pos.mpr (List.ne_nil_of_mem hm)
    omega

theorem sum_filter_visited_cons (F : Nat → Nat) (vis : List Nat) (u : Nat) :
    ∀ l : List Nat, l.Nodup → u ∈ l → u ∉ vis →
      ((l.filter fun v => decide (v ∉ vis ++ [u])).map F).sum + F u
        = ((l.filter fun v => decide (v ∉ vis)).map F).sum := by
  intro l
  induction l with
  | nil => intro _ hu _; exact absurd hu (List.not_mem_nil u)
  | cons a l ih =>
      intro hnd hu hunv
      obtain ⟨hal, hndl⟩ := List.nodup_cons.mp hnd
      rw [List.filter_cons, List.filter_cons]
      by_cases hau : a = u
      · subst hau
        rw [if_neg (by simp), if_pos (by simpa using hunv)]
        rw [List.map_cons, List.sum_cons]
        have hfeq : l.filter (fun v => decide (v ∉ vis ++ [a]))
            = l.filter (fun v => decide (v ∉ vis)) := by
          apply List.filter_congr
          intro x hx
          have hxa : x ≠ a := fun h => hal (h ▸ hx)
          simp [List.mem_append, hxa]
        rw [hfeq]
        omega
      · have hmem : (decide (a ∉ vis ++ [u])) = (decide (a ∉ vis)) := by
          simp [List.mem_append, hau]
        rw [hmem]
        have hul : u ∈ l := by
          rcases List.mem_cons.mp hu with h | h
          · exact absurd h.symm hau
          · exact h
        by_cases hav : a ∉ vis
        · rw [if_pos (by simpa using hav), if_pos (by simpa using hav)]
          rw [List.map_cons, List.sum_cons, List.map_cons, List.sum_cons]
          have := ih hndl hul hunv
          omega
        · rw [if_neg (by simpa using hav), if_neg (by simpa using hav)]
          exact ih hndl hul hunv

theorem dijkstra_settle_base {W : Type} [LinearOrderedAddCommMonoid W]
    {g : Graph W} (hnn : ∀ u, ∀ nw ∈ g.adjacency_list u, (0 : W) ≤ nw.2)
    {s endV : Nat} {σ : DijkstraState W} (hinv : DStateInv g s endV σ)
    (hend : endV ∉ σ.visited) {d : W} {u : Nat} {rest : List (W × Nat)}
    (hpop : heappop σ.pq = some ((d, u), rest)) (hu : u ∉ σ.visited) :
    DStateInv g s u { σ with visited := σ.visited ++ [u], pq := rest } := by
  obtain ⟨hm, hrest, hminp⟩ := heappop_spec hpop
  obtain ⟨hdu, ⟨pu, hpu⟩, hminu⟩ :=
    dijkstra_settle_dist hnn hinv hend hm hminp hu
  obtain ⟨-, huV, -⟩ := hinv.pqSound (d, u) hm
  refine ⟨hinv.attained, ?_, ?_, ?_, ?_, hinv.distStart, ?_,
    ?_, hinv.prevSome, ?_, ?_⟩
  · intro e he
    have he' : e ∈ rest := he
    rw [hrest] at he'
    exact hinv.pqSound e (List.mem_of_mem_erase he')
  · intro v hv c hc
    have hv1 : v ∉ σ.visited ∧ v ≠ u := by
      constructor
      · exact fun h => hv (List.mem_append_left _ h)
      · exact fun h => hv (List.mem_append_right _ (h ▸ List.mem_singleton_self u))
    have hin := hinv.fresh v hv1.1 c hc
    have hne : (c, v) ≠ (d, u) := by
      intro h
      injection h with h1 h2
      exact hv1.2 h2
    show (c, v) ∈ rest
    rw [hrest]
    exact (List.mem_erase_of_ne hne).mpr hin
  · intro v hv
    rcases List.mem_append.mp hv with hold | hnew
    · exact hinv.settled v hold
    · rw [List.mem_singleton] at hnew
      subst hnew
      exact ⟨d, hdu, ⟨pu, hpu⟩, hminu⟩
  · intro u₀ hu₀ hne₀ nw hnw
    rcases List.mem_append.mp hu₀ with hold | hnew
    · have hnend : u₀ ≠ endV := fun h => hend (h ▸ hold)
      exact hinv.relaxed u₀ hold hnend nw hnw
    · rw [List.mem_singleton] at hnew
      exact absurd hnew hne₀
  · intro v hv
    rcases List.mem_append.mp hv with hold | hnew
    · obtain ⟨c, p, hd, hp, hlen, hrec⟩ := hinv.recOk v hold
      exact ⟨c, p, hd, hp, le_trans hlen (by simp), hrec⟩
    · rw [List.mem_singleton] at hnew
      subst hnew
      cases hprev : σ.prev v with
      | none =>
          have hvs : v = s := by
            by_contra hne
            exact hinv.prevSome v hne
              (by rw [hdu]; exact WithTop.coe_ne_top) hprev
          have hd0 : d = 0 := by
            have h1 := hinv.distStart
            rw [← hvs, hdu] at h1
            exact_mod_cast h1
          refine ⟨d, [v], hdu, ?_, by simp, ?_⟩
          · rw [hvs, hd0]
            exact IsPathCost.single s
          · intro f _
            cases f with
            | zero => rfl
            | succ f =>
                rw [reconstructPath]
                show (match σ.prev v with
                  | none => [v]
                  | some u => reconstructPath σ.prev f u ++ [v]) = [v]
                rw [hprev]
      | some x =>
          obtain ⟨hxvis, w, cx, hxw, hdx, hdvw⟩ :=
            hinv.prevSound v x hprev
          obtain ⟨cx', px, hdx', hpx, hlenx, hrecx⟩ := hinv.recOk x hxvis
          have hcc : cx' = cx := by
            rw [hdx] at hdx'
            exact_mod_cast hdx'.symm
          rw [hcc] at hpx
          obtain ⟨tx, htx⟩ := isPathCost_head hpx
          have hpxlen : 1 ≤ px.length := by rw [htx]; simp
          refine ⟨cx + w, px ++ [v], hdvw, isPathCost_snoc hpx hxw, ?_, ?_⟩
          · rw [List.length_append]
            simpa using hlenx
          · intro f hf
            simp only [List.length_append, List.length_singleton] at hf
            cases f with
            | zero => exfalso; omega
            | succ f =>
                rw [reconstructPath]
                show (match σ.prev v with
                  | none => [v]
                  | some u => reconstructPath σ.prev f u ++ [v])
                  = px ++ [v]
                rw [hprev]
                dsimp only
                rw [hrecx f (by omega)]
  · intro v u₀ hp
    obtain ⟨hu₀, hrest'⟩ := hinv.prevSound v u₀ hp
    exact ⟨List.mem_append_left _ hu₀, hrest'⟩
  · intro v hv
    rcases List.mem_append.mp hv with hold | hnew
    · exact hinv.visSub v hold
    · rw [List.mem_singleton] at hnew
      exact hnew ▸ huV
  · exact nodup_append_singleton hinv.visNodup hu

theorem dijkstra_relax_inv {W : Type} [LinearOrderedAddCommMonoid W]
    {g : Graph W} (hwf : g.Wf)
    (hnn : ∀ u, ∀ nw ∈ g.adjacency_list u, (0 : W) ≤ nw.2)
    {s endV : Nat} {σ₁ : DijkstraState W} {u : Nat} {d : W}
    (hbase : DStateInv g s u σ₁) (huvis : u ∈ σ₁.visited)
    (hdu : σ₁.dist u = (d : WithTop W))
    (hpu : ∃ p, IsPathCost g p s u d) :
    DStateInv g s endV (relaxNeighbors u d (g.get_neighbors u) σ₁) := by
  obtain ⟨pu, hpu0⟩ := hpu
  obtain ⟨R1, R2, R3, ⟨pushed, hpq, hplen, hpush⟩, R5⟩ :=
    relaxNeighbors_spec u d (g.get_neighbors u) σ₁
  have hfrozen : ∀ v ∈ σ₁.visited,
      (relaxNeighbors u d (g.get_neighbors u) σ₁).dist v = σ₁.dist v ∧
      (relaxNeighbors u d (g.get_neighbors u) σ₁).prev v = σ₁.prev v :=
    fun v hv => (R3 v).resolve_right (fun h => h.1 hv)
  have hd2u : (relaxNeighbors u d (g.get_neighbors u) σ₁).dist u
      = (d : WithTop W) := by
    rw [(hfrozen u huvis).1]
    exact hdu
  refine ⟨?_, ?_, ?_, ?_, ?_, ?_, ?_, ?_, ?_, ?_, ?_⟩
  · intro v
    rcases R3 v with ⟨hd2, -⟩ | ⟨-, w', hw', hd2, -, -⟩
    · rw [hd2]
      exact hbase.attained v
    · exact Or.inr ⟨d + w', pu ++ [v], hd2, isPathCost_snoc hpu0 hw'⟩
  · intro e he
    rw [hpq] at he
    rcases List.mem_append.mp he with hold | hnew
    · obtain ⟨h1, h2, p, hp⟩ := hbase.pqSound e hold
      exact ⟨(R2 e.2).trans h1, h2, p, hp⟩
    · obtain ⟨hd2, hnvis, w', hw', he1⟩ := hpush e hnew
      refine ⟨hd2, hwf.closed u (e.2, w') hw', pu ++ [e.2], ?_⟩
      rw [he1]
      exact isPathCost_snoc hpu0 hw'
  · intro v hv c hc
    rw [R1] at hv
    rcases R3 v with ⟨hd2, -⟩ | ⟨-, w', hw', hd2, -, hpqmem⟩
    · rw [hd2] at hc
      rw [hpq]
      exact List.mem_append_left _ (hbase.fresh v hv c hc)
    · rw [hd2] at hc
      have hceq : c = d + w' := by exact_mod_cast hc.symm
      rw [hceq]
      exact hpqmem
  · intro v hv
    rw [R1] at hv
    obtain ⟨c, hd, hrest⟩ := hbase.settled v hv
    refine ⟨c, ?_, hrest⟩
    rw [(hfrozen v hv).1]
    exact hd
  · intro u₀ hu₀ hne₀ nw hnw
    rw [R1] at hu₀
    by_cases hu₀u : u₀ = u
    · subst hu₀u
      rcases R5 nw hnw with hnvis | hle
      · rw [(hfrozen nw.1 hnvis).1, hd2u, ← WithTop.coe_add]
        obtain ⟨cn, hdn, -, hminn⟩ := hbase.settled nw.1 hnvis
        have hnw' : (nw.1, nw.2) ∈ g.adjacency_list u₀ := by
          simpa using hnw
        have hsn := isPathCost_snoc hpu0 hnw'
        rw [hdn]
        exact WithTop.coe_le_coe.mpr (hminn _ _ hsn)
      · rw [hd2u, ← WithTop.coe_add]
        exact hle
    · have hrel := hbase.relaxed u₀ hu₀ hu₀u nw hnw
      rw [(hfrozen u₀ hu₀).1]
      exact (R2 nw.1).trans hrel
  · rcases R3 s with ⟨hd2, -⟩ | ⟨-, w', hw', hd2, -, -⟩
    · rw [hd2]
      exact hbase.distStart
    · have h1 : (relaxNeighbors u d (g.get_neighbors u) σ₁).dist s
          ≤ ((0 : W) : WithTop W) := by
        rw [← hbase.distStart]
        exact R2 s
      have h2 : ((0 : W) : WithTop W)
          ≤ (relaxNeighbors u d (g.get_neighbors u) σ₁).dist s := by
        rw [hd2]
        exact WithTop.coe_le_coe.mpr
          (add_nonneg (isPathCost_nonneg hnn hpu0) (hnn u _ hw'))
      exact le_antisymm h1 h2
  · intro v hv
    rw [R1] at hv
    obtain ⟨c, p, hd, hp, hlen, hrec⟩ := hbase.recOk v hv
    refine ⟨c, p, ?_, hp, ?_, ?_⟩
    · rw [(hfrozen v hv).1]
      exact hd
    · rw [R1]
      exact hlen
    · intro f hf
      have hagree : ∀ x ∈ σ₁.visited,
          (relaxNeighbors u d (g.get_neighbors u) σ₁).prev x = σ₁.prev x :=
        fun x hx => (hfrozen x hx).2
      have hchain : ∀ x y, σ₁.prev x = some y → y ∈ σ₁.visited :=
        fun x y h => (hbase.prevSound x y h).1
      exact (reconstructPath_congr σ₁.prev _ σ₁.visited hagree hchain
        f v hv).trans (hrec f hf)
  · intro v u₀ hp
    rcases R3 v with ⟨hd2, hp2⟩ | ⟨-, w', hw', hd2, hp2, -⟩
    · rw [hp2] at hp
      obtain ⟨hu₀, w', cu', hw', hdu', hdv'⟩ := hbase.prevSound v u₀ hp
      refine ⟨by rw [R1]; exact hu₀, w', cu', hw', ?_, ?_⟩
      · rw [(hfrozen u₀ hu₀).1]
        exact hdu'
      · rw [hd2]
        exact hdv'
    · rw [hp2] at hp
      injection hp with hp
      subst hp
      refine ⟨by rw [R1]; exact huvis, w', d, hw', hd2u, hd2⟩
  · intro v hvs hne
    rcases R3 v with ⟨hd2, hp2⟩ | ⟨-, -, -, -, hp2, -⟩
    · rw [hd2] at hne
      rw [hp2]
      exact hbase.prevSome v hvs hne
    · rw [hp2]
      simp
  · intro v hv
    rw [R1] at hv
    exact hbase.visSub v hv
  · rw [R1]
    exact hbase.visNodup

theorem dijkstra_settle_measure {W : Type} [LinearOrderedAddCommMonoid W]
    {g : Graph W} (hwf : g.Wf) {σ : DijkstraState W}
    {d : W} {u : Nat} {rest : List (W × Nat)}
    (hpop : heappop σ.pq = some ((d, u), rest)) (hu : u ∉ σ.visited)
    (huV : u ∈ g.vertices) :
    dijkstraMeasure g (relaxNeighbors u d (g.get_neighbors u)
      { σ with visited := σ.visited ++ [u], pq := rest })
      < dijkstraMeasure g σ := by
  obtain ⟨hm, hrest, -⟩ := heappop_spec hpop
  obtain ⟨R1, -, -, ⟨pushed, hpq, hplen, -⟩, -⟩ :=
    relaxNeighbors_spec u d (g.get_neighbors u)
      { σ with visited := σ.visited ++ [u], pq := rest }
  unfold dijkstraMeasure
  rw [hpq, R1]
  dsimp only
  rw [hrest, List.length_append]
  have hsum := sum_filter_visited_cons
    (fun v => 1 + (g.adjacency_list v).length) σ.visited u g.vertices
    hwf.nodup huV hu
  dsimp only at hsum
  have hlen := List.length_erase_of_mem hm
  have hpos : 0 < σ.pq.length :=
    List.length_pos.mpr (List.ne_nil_of_mem hm)
  have hplen' : pushed.length ≤ (g.adjacency_list u).length := hplen
  omega

theorem dijkstraLoop_post {W : Type} [LinearOrderedAddCommMonoid W]
    {g : Graph W} (hwf : g.Wf)
    (hnn : ∀ u, ∀ nw ∈ g.adjacency_list u, (0 : W) ≤ nw.2)
    (s endV : Nat) :
    ∀ (fuel : Nat) (σ : DijkstraState W), DStateInv g s endV σ →
      endV ∉ σ.visited → dijkstraMeasure g σ ≤ fuel →
      DStateInv g s endV (dijkstraLoop g endV fuel σ) ∧
      (endV ∈ (dijkstraLoop g endV fuel σ).visited ∨
        (dijkstraLoop g endV fuel σ).pq = []) := by
  intro fuel
  induction fuel with
  | zero =>
      intro σ hinv hend hμ
      have h0 : dijkstraLoop g endV 0 σ = σ := rfl
      rw [h0]
      refine ⟨hinv, Or.inr ?_⟩
      have hl : σ.pq.length = 0 := by
        unfold dijkstraMeasure at hμ
        omega
      exact List.length_eq_zero.mp hl
  | succ fuel ih =>
      intro σ hinv hend hμ
      have hstep : dijkstraLoop g endV (fuel + 1) σ
          = match heappop σ.pq with
            | none => σ
            | some ((d, u), rest) =>
                if u ∈ σ.visited then
                  dijkstraLoop g endV fuel { σ with pq := rest }
                else
                  if u = endV then
                    { σ with visited := σ.visited ++ [u], pq := rest }
                  else dijkstraLoop g endV fuel
                    (relaxNeighbors u d (g.get_neighbors u)
                      { σ with visited := σ.visited ++ [u],
                               pq := rest }) := rfl
      rw [hstep]
      cases hpop : heappop σ.pq with
      | none => exact ⟨hinv, Or.inr (heappop_none hpop)⟩
      | some pr =>
          obtain ⟨⟨d, u⟩, rest⟩ := pr
          dsimp only
          by_cases hu : u ∈ σ.visited
          · rw [if_pos hu]
            obtain ⟨hinv', hlt⟩ := dijkstra_discard_step hinv hpop hu
            exact ih { σ with pq := rest } hinv' hend (by omega)
          · rw [if_neg hu]
            by_cases hue : u = endV
            · rw [if_pos hue]
              have hbase := dijkstra_settle_base hnn hinv hend hpop hu
              subst hue
              refine ⟨hbase, Or.inl ?_⟩
              exact List.mem_append_right _ (List.mem_singleton_self u)
            · rw [if_neg hue]
              have hbase := dijkstra_settle_base hnn hinv hend hpop hu
              obtain ⟨hm, hrest, hminp⟩ := heappop_spec hpop
              obtain ⟨hdu, hpu, hminu⟩ :=
                dijkstra_settle_dist hnn hinv hend hm hminp hu
              obtain ⟨-, huV, -⟩ := hinv.pqSound (d, u) hm
              have huvis : u ∈ σ.visited ++ [u] :=
                List.mem_append_right _ (List.mem_singleton_self u)
              have hinv₂ : DStateInv g s endV
                  (relaxNeighbors u d (g.get_neighbors u)
                    { σ with visited := σ.visited ++ [u], pq := rest }) :=
                dijkstra_relax_inv hwf hnn hbase huvis hdu hpu
              have hμ₂ := dijkstra_settle_measure hwf hpop hu huV
              obtain ⟨R1, -, -, -, -⟩ :=
                relaxNeighbors_spec u d (g.get_neighbors u)
                  { σ with visited := σ.visited ++ [u], pq := rest }
              have hend₂ : endV ∉ (relaxNeighbors u d (g.get_neighbors u)
                  { σ with visited := σ.visited ++ [u],
                           pq := rest }).visited := by
                rw [R1]
                dsimp only
                intro hmem
                rcases List.mem_append.mp hmem with h | h
                · exact hend h
                · rw [List.mem_singleton] at h
                  exact hue h.symm
              exact ih _ hinv₂ hend₂ (by omega)

theorem dijkstra_init_inv {W : Type} [LinearOrderedAddCommMonoid W]
    {g : Graph W} {s endV : Nat} (hs : s ∈ g.vertices) :
    DStateInv g s endV
      { dist := fun v => if v = s then ((0 : W) : WithTop W) else ⊤,
        prev := fun _ => none, visited := [], pq := [(0, s)] } := by
  refine ⟨?_, ?_, ?_, ?_, ?_, ?_, ?_, ?_, ?_, ?_, ?_⟩
  · intro v
    by_cases hv : v = s
    · refine Or.inr ⟨0, [s], ?_, ?_⟩
      · dsimp only
        rw [if_pos hv]
      · rw [hv]
        exact IsPathCost.single s
    · refine Or.inl ?_
      dsimp only
      rw [if_neg hv]
  · intro e he
    rw [List.mem_singleton] at he
    subst he
    refine ⟨?_, hs, ⟨[s], IsPathCost.single s⟩⟩
    dsimp only
    rw [if_pos rfl]
  · intro v hv c hc
    dsimp only at hc
    by_cases hveq : v = s
    · rw [if_pos hveq] at hc
      have hc0 : c = 0 := by exact_mod_cast hc.symm
      rw [hc0, hveq]
      exact List.mem_singleton_self _
    · rw [if_neg hveq] at hc
      exact absurd hc.symm WithTop.coe_ne_top
  · intro v hv
    exact absurd hv (List.not_mem_nil v)
  · intro u hu
    exact absurd hu (List.not_mem_nil u)
  · dsimp only
    rw [if_pos rfl]
  · intro v hv
    exact absurd hv (List.not_mem_nil v)
  · intro v u hp
    simp at hp
  · intro v hvs hne
    dsimp only at hne ⊢
    rw [if_neg hvs] at hne
    exact absurd rfl hne
  · intro v hv
    exact absurd hv (List.not_mem_nil v)
  · exact List.nodup_nil

theorem dijkstraMeasure_init {W : Type} (g : Graph W)
    (σ : DijkstraState W) (hvis : σ.visited = []) (hpq : σ.pq.length = 1) :
    dijkstraMeasure g σ = dijkstraFuel g := by
  unfold dijkstraMeasure dijkstraFuel
  rw [hvis, hpq]
  have hfilt : (g.vertices.filter fun v => decide (v ∉ ([] : List Nat)))
      = g.vertices := by
    apply List.filter_eq_self.mpr
    intro a _
    simp
  rw [hfilt]

/-- C1: for every graph built by `add_vertex`/`add_edge` calls with
non-negative weights and every pair of vertices known to the graph,
`dijkstra(start, end)` either returns a path that walks adjacency
entries from `start` to `end` whose entry weights sum exactly to the
returned finite distance, that distance being minimal over all such
walks, or returns `([], ∞)` and no walk from `start` to `end` exists;
if either endpoint is unknown it returns `([], ∞)`. -/
theorem dijkstra_correct {W : Type} [LinearOrderedAddCommMonoid W]
    (ops : List (BuildOp W)) (g : Graph W) (hgraph : g = buildGraph ops)
    (hw : opsNonneg ops = true) (start_vertex end_vertex : Nat) :
    (start_vertex ∈ g.vertices → end_vertex ∈ g.vertices →
      (∃ (p : List Nat) (c : W),
        g.dijkstra start_vertex end_vertex = (p, (c : WithTop W)) ∧
        IsPathCost g p start_vertex end_vertex c ∧
        ∀ q c', IsPathCost g q start_vertex end_vertex c' → c ≤ c') ∨
      (g.dijkstra start_vertex end_vertex = ([], ⊤) ∧
        ∀ p c, ¬ IsPathCost g p start_vertex end_vertex c)) ∧
    (start_vertex ∉ g.vertices ∨ end_vertex ∉ g.vertices →
      g.dijkstra start_vertex end_vertex = ([], ⊤)) := by
  have hwf : g.Wf := hgraph ▸ buildGraph_wf ops
  have hnn : ∀ u, ∀ nw ∈ g.adjacency_list u, (0 : W) ≤ nw.2 := by
    rw [hgraph]
    exact buildGraph_nonneg ops hw
  constructor
  · intro hs he
    have hval : g.dijkstra start_vertex end_vertex
        = (if (dijkstraLoop g end_vertex (dijkstraFuel g)
              { dist := fun v =>
                  if v = start_vertex then ((0 : W) : WithTop W) else ⊤,
                prev := fun _ => none, visited := [],
                pq := [(0, start_vertex)] }).dist end_vertex = ⊤
           then ([], ⊤)
           else (reconstructPath (dijkstraLoop g end_vertex (dijkstraFuel g)
              { dist := fun v =>
                  if v = start_vertex then ((0 : W) : WithTop W) else ⊤,
                prev := fun _ => none, visited := [],
                pq := [(0, start_vertex)] }).prev
              g.vertices.length end_vertex,
             (dijkstraLoop g end_vertex (dijkstraFuel g)
              { dist := fun v =>
                  if v = start_vertex then ((0 : W) : WithTop W) else ⊤,
                prev := fun _ => none, visited := [],
                pq := [(0, start_vertex)] }).dist end_vertex)) := by
      unfold Graph.dijkstra
      rw [if_pos ⟨hs, he⟩]
    obtain ⟨hinvτ, hdisj⟩ := dijkstraLoop_post hwf hnn start_vertex
      end_vertex (dijkstraFuel g)
      { dist := fun v =>
          if v = start_vertex then ((0 : W) : WithTop W) else ⊤,
        prev := fun _ => none, visited := [], pq := [(0, start_vertex)] }
      (dijkstra_init_inv hs) (List.not_mem_nil end_vertex)
      (le_of_eq (dijkstraMeasure_init g _ rfl rfl))
    by_cases hvisend : end_vertex ∈ (dijkstraLoop g end_vertex
        (dijkstraFuel g)
        { dist := fun v =>
            if v = start_vertex then ((0 : W) : WithTop W) else ⊤,
          prev := fun _ => none, visited := [],
          pq := [(0, start_vertex)] }).visited
    · obtain ⟨c, hdc, -, hminc⟩ := hinvτ.settled end_vertex hvisend
      obtain ⟨c', p, hdc', hp, hlenp, hrec⟩ :=
        hinvτ.recOk end_vertex hvisend
      have hcc : c' = c := by
        rw [hdc] at hdc'
        exact_mod_cast hdc'.symm
      rw [hcc] at hp
      left
      refine ⟨p, c, ?_, hp, hminc⟩
      rw [hval, if_neg (by rw [hdc]; exact WithTop.coe_ne_top)]
      have hlen2 : p.length ≤ g.vertices.length :=
        le_trans hlenp (nodup_subset_length_le hinvτ.visNodup hinvτ.visSub)
      rw [hrec g.vertices.length (by omega), hdc]
    · have hpqnil := hdisj.resolve_left hvisend
      have hdtop : (dijkstraLoop g end_vertex (dijkstraFuel g)
          { dist := fun v =>
              if v = start_vertex then ((0 : W) : WithTop W) else ⊤,
            prev := fun _ => none, visited := [],
            pq := [(0, start_vertex)] }).dist end_vertex = ⊤ := by
        by_contra hne
        obtain ⟨c, hc⟩ := WithTop.ne_top_iff_exists.mp hne
        have hmem := hinvτ.fresh end_vertex hvisend c hc.symm
        rw [hpqnil] at hmem
        exact absurd hmem (List.not_mem_nil _)
      right
      constructor
      · rw [hval, if_pos hdtop]
      · intro p c hp
        obtain ⟨m, hm, -⟩ :=
          dijkstra_frontier hnn hinvτ hvisend hp (Or.inl rfl) hvisend
        rw [hpqnil] at hm
        exact absurd hm (List.not_mem_nil m)
  · intro hbad
    unfold Graph.dijkstra
    rw [if_neg (fun hand => hbad.elim (fun h => h hand.1)
      (fun h => h hand.2))]

theorem dijkstra_correct_witness :
    ((buildGraph [BuildOp.edge 0 1 (1 : Int), .edge 1 2 1, .edge 2 3 1,
        .edge 3 0 1, .edge 0 2 5]).dijkstra 0 2
      = ([0, 1, 2], ((2 : Int) : WithTop Int))) ∧
    ((∃ (p : List Nat) (c : Int),
        (buildGraph [BuildOp.edge 0 1 (1 : Int), .edge 1 2 1, .edge 2 3 1,
          .edge 3 0 1, .edge 0 2 5]).dijkstra 0 2 = (p, (c : WithTop Int)) ∧
        IsPathCost (buildGraph [BuildOp.edge 0 1 (1 : Int), .edge 1 2 1,
          .edge 2 3 1, .edge 3 0 1, .edge 0 2 5]) p 0 2 c ∧
        ∀ q c', IsPathCost (buildGraph [BuildOp.edge 0 1 (1 : Int),
          .edge 1 2 1, .edge 2 3 1, .edge 3 0 1, .edge 0 2 5]) q 0 2 c' →
          c ≤ c') ∨
      ((buildGraph [BuildOp.edge 0 1 (1 : Int), .edge 1 2 1, .edge 2 3 1,
          .edge 3 0 1, .edge 0 2 5]).dijkstra 0 2 = ([], ⊤) ∧
        ∀ p c, ¬ IsPathCost (buildGraph [BuildOp.edge 0 1 (1 : Int),
          .edge 1 2 1, .edge 2 3 1, .edge 3 0 1, .edge 0 2 5]) p 0 2 c)) :=
  ⟨by decide,
    (dijkstra_correct _ _ rfl (by decide) 0 2).1 (by decide) (by decide)⟩
